import Mathlib

/-!
Shallow embedding of the core of retentioneering-tools
(src/retentioneering/core/base_classes/base_trajectory.py) and proofs about it.

An event log is a list of rows; each row carries the three configured columns
(index_col = entity, event_col = event, event_time_col = time) plus one
auxiliary column `wkey` that stands for any extra weighting column a caller
may pass as weight_col.  Timestamps and all float arithmetic are modelled by
exact rationals (division by zero yields 0 where pandas would yield NaN/inf;
every place where this matters is noted at the theorem concerned).
-/

set_option maxHeartbeats 1000000

/-- One row of the event log (index_col, event_col, event_time_col plus one
auxiliary weighting column). -/
structure Row where
  entity : String
  event : String
  time : ℚ
  wkey : String
deriving DecidableEq, Repr

/-! ### Small list utilities

Counters model the running state of pandas groupby-cumsum operations; the
sort is a stable insertion sort standing for pandas sort_values (which uses a
stable lexsort for multi-column keys). -/

/-- Look up a key in an association counter, 0 when absent. -/
def lookupC (k : String) : List (String × ℕ) → ℕ
  | [] => 0
  | (k', n) :: rest => if k' = k then n else lookupC k rest

/-- Set a key in an association counter. -/
def setC (k : String) (v : ℕ) : List (String × ℕ) → List (String × ℕ)
  | [] => [(k, v)]
  | (k', n) :: rest => if k' = k then (k', v) :: rest else (k', n) :: setC k v rest

/-- Insert into a sorted list: the new element goes after every element that
is strictly smaller, hence before equal elements seen so far (stability). -/
def insertLt (lt : α → α → Bool) (x : α) : List α → List α
  | [] => [x]
  | y :: ys => if lt y x then y :: insertLt lt x ys else x :: y :: ys

/-- Stable insertion sort with respect to a strict comparison. -/
def sortLt (lt : α → α → Bool) : List α → List α
  | [] => []
  | x :: xs => insertLt lt x (sortLt lt xs)

/-- Keep the first occurrence of every value (insertion-ordered dedup). -/
def dedupF [DecidableEq α] : List α → List α
  | [] => []
  | x :: xs => x :: (dedupF xs).filter (fun y => decide (y ≠ x))

/-- Lexicographic comparison of character lists by code point. -/
def listCharLtB : List Char → List Char → Bool
  | [], [] => false
  | [], _ :: _ => true
  | _ :: _, [] => false
  | a :: as, b :: bs =>
    if a.val.toNat < b.val.toNat then true
    else if b.val.toNat < a.val.toNat then false
    else listCharLtB as bs

/-- Lexicographic string comparison (the order pandas sorts string keys by). -/
def strLtB (a b : String) : Bool := listCharLtB a.data b.data

/-- Model of str.startswith on the character content. -/
def startsWithB (s pre : String) : Bool := pre.data.isPrefixOf s.data

/-- Number of distinct values in a list (pandas nunique). -/
def nunique [DecidableEq α] (l : List α) : ℕ := (dedupF l).length

/-- Occurrence count of a value in a list. -/
def cnt [DecidableEq α] (a : α) (l : List α) : ℕ :=
  (l.filter (fun x => decide (x = a))).length

/-! ### SequenceShifter: BaseTrajectory.get_shift (base_trajectory.py lines 26-49) -/

/-- A row paired with the event and timestamp of the chronologically next row
of the same entity (None for an entity's last row), as produced by get_shift. -/
structure SRow where
  row : Row
  next_event : Option String
  next_time : Option ℚ
deriving DecidableEq, Repr

/-- Strict comparison for sort_values([index_col, time_col]). -/
def rowLtB (a b : Row) : Bool :=
  strLtB a.entity b.entity || (a.entity == b.entity && decide (a.time < b.time))

/-- Pair every element of an (entity, time)-sorted list with its successor in
the same entity group (groupby(index_col).shift(-1)). -/
def withNext : List Row → List SRow
  | [] => []
  | [r] => [⟨r, none, none⟩]
  | r :: s :: rest =>
    (if s.entity = r.entity then (⟨r, some s.event, some s.time⟩ : SRow)
     else ⟨r, none, none⟩) :: withNext (s :: rest)

/-- get_shift: sort by (entity, time), then shift each entity group by -1. -/
def get_shift (data : List Row) : List SRow :=
  withNext (sortLt rowLtB data)

/-! ### EdgeListBuilder: BaseTrajectory.get_edgelist (lines 51-117) -/

/-- Normalization selector; the code raises on any other value, so the valid
set is modelled as an inductive type. -/
inductive NormType where
  | nnone
  | full
  | node
deriving DecidableEq, Repr

/-- One output row of get_edgelist. -/
structure EdgeRow where
  src : String
  tgt : String
  weight : ℚ
deriving DecidableEq, Repr

/-- Strict lexicographic comparison of (source, target) pairs: pandas groupby
returns its groups sorted by key. -/
def pairLtB (a b : String × String) : Bool :=
  strLtB a.1 b.1 || (a.1 == b.1 && strLtB a.2 b.2)

/-- Shifted rows that actually have a next event (groupby on
[event_col, next_event_col] silently drops rows whose next event is NaN),
keeping the full shifted row for weighting purposes. -/
def transRows (data : List Row) : List (SRow × String) :=
  (get_shift data).filterMap (fun sr => (sr.next_event).map (fun ne => (sr, ne)))

/-- The (event, next_event) pair of every transition. -/
def transPairs (data : List Row) : List (String × String) :=
  (transRows data).map (fun t => (t.1.row.event, t.2))

/-- Aggregated raw weight of one (source, target) group: transition count when
weight_col is None, distinct weighting-column values otherwise. -/
def rawWeight (data : List Row) (weight_col : Option (Row → String))
    (p : String × String) : ℚ :=
  match weight_col with
  | none => (cnt p (transPairs data) : ℚ)
  | some f =>
    (nunique (((transRows data).filter
      (fun t => decide ((t.1.row.event, t.2) = p))).map (fun t => f t.1.row)) : ℚ)

/-- Divisor applied by norm_type='full' (lines 103-107): the grand total of the
aggregated weights, or the distinct count of the weighting column over the
whole shifted table. -/
def fullDivisor (data : List Row) (weight_col : Option (Row → String)) : ℚ :=
  match weight_col with
  | none => ((sortLt pairLtB (dedupF (transPairs data))).map (rawWeight data none)).sum
  | some f => (nunique ((get_shift data).map (fun sr => f sr.row)) : ℚ)

/-- Divisor applied by norm_type='node' (lines 109-115) for a given source:
the count of non-null next events of that source, or the distinct count of the
weighting column over all rows with that source event. -/
def nodeDivisor (data : List Row) (weight_col : Option (Row → String))
    (s : String) : ℚ :=
  match weight_col with
  | none => (((transRows data).filter (fun t => t.1.row.event == s)).length : ℚ)
  | some f =>
    (nunique (((get_shift data).filter
      (fun sr => sr.row.event == s)).map (fun sr => f sr.row)) : ℚ)

/-- Final weight of one (source, target) group after normalization. -/
def edgeWeight (data : List Row) (weight_col : Option (Row → String))
    (norm : NormType) (p : String × String) : ℚ :=
  match norm with
  | NormType.nnone => rawWeight data weight_col p
  | NormType.full => rawWeight data weight_col p / fullDivisor data weight_col
  | NormType.node => rawWeight data weight_col p / nodeDivisor data weight_col p.1

/-- get_edgelist: one output row per observed (event, next_event) pair, with
groups sorted by key as pandas groupby does. -/
def get_edgelist (data : List Row) (weight_col : Option (Row → String))
    (norm : NormType) : List EdgeRow :=
  (sortLt pairLtB (dedupF (transPairs data))).map
    (fun p => ⟨p.1, p.2, edgeWeight data weight_col norm p⟩)

/-! ### AdjacencyProjector: BaseTrajectory.get_adjacency (lines 119-149) -/

/-- A dense square matrix over one node list (networkx to_pandas_adjacency
indexes rows and columns by the same node list). -/
structure AdjMat where
  nodes : List String
  entry : String → String → ℚ

/-- get_adjacency: build a digraph from the edge list and project it; the node
list collects sources and targets in edge insertion order. -/
def get_adjacency (data : List Row) (weight_col : Option (Row → String))
    (norm : NormType) : AdjMat :=
  let agg := get_edgelist data weight_col norm
  { nodes := dedupF ((agg.map (fun e => [e.src, e.tgt])).flatten)
    entry := fun s t =>
      match agg.find? (fun e => e.src == s && e.tgt == t) with
      | some e => e.weight
      | none => 0 }

/-! ### StepMatrixEngine: BaseTrajectory.get_step_matrix (lines 151-311) -/

/-- The role configuration slots used by get_step_matrix. -/
structure Config where
  positive_target_event : String
  negative_target_event : String
  target_event_list : List String
deriving Repr

/-- The admissible values of the reverse parameter: 'pos', 'neg',
['pos','neg']. -/
inductive RevSel where
  | pos
  | neg
  | both
deriving DecidableEq, Repr

/-- Resolve the reverse selection to the configured target event names
(lines 230-237). -/
def resolveTargets (cfg : Config) : RevSel → List String
  | RevSel.pos => [cfg.positive_target_event]
  | RevSel.neg => [cfg.negative_target_event]
  | RevSel.both => [cfg.positive_target_event, cfg.negative_target_event]

/-- First element of a list of strings (targets[0] in the error message). -/
def headStr : List String → String
  | [] => ""
  | t :: _ => t

/-- Increment a key's counter, returning the new (inclusive) running count. -/
def bumpCount (k : String) : List (String × ℕ) → ℕ × List (String × ℕ)
  | [] => (1, [(k, 1)])
  | (k', n) :: rest =>
    if k' = k then (n + 1, (k', n + 1) :: rest)
    else
      let r := bumpCount k rest
      (r.1, (k', n) :: r.2)

/-- Running groupby(weight_col).cumsum of a column of ones, in row order
(lines 226-227: the data is NOT re-sorted by time first). -/
def rankGo (wc : Row → String) : List Row → List (String × ℕ) → List (Row × ℕ)
  | [], _ => []
  | r :: rs, ctr =>
    let b := bumpCount (wc r) ctr
    (r, b.1) :: rankGo wc rs b.2

/-- event_rank column: 1-based running count of rows per weighting key. -/
def eventRanks (wc : Row → String) (data : List Row) : List (Row × ℕ) :=
  rankGo wc data []

/-- Single traversal computing, per row, the event_rank (lines 226-227) and
the convpoint value (lines 239-244: cumulative count of target occurrences
for the key minus the row's own mark, i.e. targets strictly before the row
within its key). -/
def rankConvGo (wc : Row → String) (targets : List String) :
    List Row → List (String × ℕ) → List (String × ℕ) → List (Row × ℕ × ℕ)
  | [], _, _ => []
  | r :: rs, rctr, cctr =>
    let b := bumpCount (wc r) rctr
    let prev := lookupC (wc r) cctr
    let cctr' := if r.event ∈ targets then setC (wc r) (prev + 1) cctr else cctr
    (r, b.1, prev) :: rankConvGo wc targets rs b.2 cctr'

/-- Rows annotated with (event_rank, convpoint). -/
def rankConv (wc : Row → String) (targets : List String) (data : List Row) :
    List (Row × ℕ × ℕ) :=
  rankConvGo wc targets data [] []

/-- The (weight key, convpoint) group of an annotated row, in data order. -/
def groupOf (wc : Row → String) (rc : List (Row × ℕ × ℕ)) (x : Row × ℕ × ℕ) :
    List (Row × ℕ × ℕ) :=
  rc.filter (fun y => wc y.1 == wc x.1 && y.2.2 == x.2.2)

/-- non-detriment column (lines 250-254): every row of a group receives
whether the group's last row is a target event. -/
def nonDetriment (wc : Row → String) (targets : List String)
    (rc : List (Row × ℕ × ℕ)) (x : Row × ℕ × ℕ) : Bool :=
  decide (((groupOf wc rc x).getLastD x).1.event ∈ targets)

/-- Maximum event_rank within a group (x.max() in line 248). -/
def maxRank (g : List (Row × ℕ × ℕ)) : ℕ :=
  (g.map (fun y => y.2.1)).foldl max 0

/-- Reverse re-ranking (line 245-249) restricted to non-detriment rows
(line 258): rank becomes group-max minus rank plus 1. -/
def reverseRanked (wc : Row → String) (targets : List String) (data : List Row) :
    List (Row × ℕ) :=
  let rc := rankConv wc targets data
  (rc.filter (nonDetriment wc targets rc)).map
    (fun x => (x.1, maxRank (groupOf wc rc x) - x.2.1 + 1))

/-- Cell value of the step matrix before the final normalization: distinct
weighting keys at (rank, event) over distinct keys in the whole (filtered)
data (lines 262-266, fillna(0) of the pivot included). -/
def stepFreq (wc : Row → String) (ranked : List (Row × ℕ)) (N : ℕ)
    (r : ℕ) (e : String) : ℚ :=
  (nunique ((ranked.filter (fun x => x.2 == r && x.1.event == e)).map
    (fun x => wc x.1)) : ℚ) / (N : ℚ)

/-- Strict comparison on naturals. -/
def natLtB (a b : ℕ) : Bool := decide (a < b)

/-- Pivot (line 272): columns are the distinct ranks sorted ascending, the
index is the distinct event names sorted, missing cells filled with 0. -/
def pivotRows (wc : Row → String) (ranked : List (Row × ℕ)) (N : ℕ) :
    List ℕ × List (String × List ℚ) :=
  let colRanks := sortLt natLtB (dedupF (ranked.map (fun x => x.2)))
  let rowNames := sortLt strLtB (dedupF (ranked.map (fun x => x.1.event)))
  (colRanks, rowNames.map (fun e => (e, colRanks.map (fun r => stepFreq wc ranked N r e))))

/-- Running cumulative sum of a list of rationals. -/
def cumsumQ : ℚ → List ℚ → List ℚ
  | _, [] => []
  | s, x :: xs => (s + x) :: cumsumQ (s + x) xs

/-- cumsum().shift(1).fillna(0) of a row of values. -/
def accumShift (v : List ℚ) : List ℚ :=
  match v with
  | [] => []
  | _ => 0 :: (cumsumQ 0 v).dropLast

/-- _add_accums (lines 151-155): the accumulated row for one target name,
relative to the matrix built so far. -/
def accumRowOf (acc : List (String × List ℚ)) (ncols : ℕ) (t : String) :
    String × List ℚ :=
  match acc.find? (fun p => p.1 == t) with
  | some p => ("Accumulated " ++ t, accumShift p.2)
  | none => ("Accumulated " ++ t, List.replicate ncols 0)

/-- The rows appended by the loop at lines 277-278, each computed against the
matrix extended with the previously appended accumulated rows. -/
def accumRows (ncols : ℕ) : List String → List (String × List ℚ) → List (String × List ℚ)
  | [], _ => []
  | t :: ts, acc =>
    let rowt := accumRowOf acc ncols t
    rowt :: accumRows ncols ts (acc ++ [rowt])

/-- Pruning (lines 280-283): keep rows with some value at or above thr, rows
named Accumulated something, and rows of declared target events. -/
def pruneRows (thr : ℚ) (targets : List String) (rows : List (String × List ℚ)) :
    List (String × List ℚ) :=
  if thr = 0 then rows
  else
    rows.filter (fun p =>
      p.2.any (fun v => decide (thr ≤ v)) || startsWithB p.1 "Accumulated" ||
        decide (p.1 ∈ targets))

/-- Value of a row at column position j (0 outside the row). -/
def colVal (p : String × List ℚ) (j : ℕ) : ℚ := p.2.getD j 0

/-- First row attaining the maximum of column position j (idxmax). -/
def idxmaxRow (j : ℕ) : List (String × List ℚ) → String × List ℚ
  | [] => ("", [])
  | x :: xs => xs.foldl (fun best r => if colVal best j < colVal r j then r else best) x

/-- Greedy loop of _sort_matrix (lines 157-168): per column position, take the
remaining row with the largest value, drop it, stop when rows run out; rows
left over once columns are exhausted are appended (the source appends them in
Python set order, which is unspecified; input order is used here). -/
def sortMatrixGo : List ℕ → List (String × List ℚ) → List (String × List ℚ)
  | [], rest => rest
  | _ :: _, [] => []
  | j :: js, x :: xs =>
    let pick := idxmaxRow j (x :: xs)
    pick :: sortMatrixGo js ((x :: xs).filter (fun r => decide (r.1 ≠ pick.1)))

/-- _sort_matrix over the column positions of the matrix. -/
def sort_matrix (ncols : ℕ) (rows : List (String × List ℚ)) :
    List (String × List ℚ) :=
  sortMatrixGo (List.range ncols) rows

/-- Column labels (line 290): reverse mode rewrites rank labels to
n, n - 1, ... ; forward mode keeps the numeric ranks. -/
def stepLabels (reverse : Option RevSel) (colRanks : List ℕ) : List String :=
  match reverse with
  | none => colRanks.map (fun r => toString r)
  | some _ =>
    match colRanks with
    | [] => []
    | _ :: rest => "n" :: rest.map (fun r => "n - " ++ toString (r - 1))

/-- Sum of one column of the matrix. -/
def colSum (rows : List (String × List ℚ)) (j : ℕ) : ℚ :=
  (rows.map (fun r => colVal r j)).sum

/-- Divide the entries of a row positionwise by a per-position divisor. -/
def divIdx (f : ℕ → ℚ) : ℕ → List ℚ → List ℚ
  | _, [] => []
  | j, v :: vs => v / f j :: divIdx f (j + 1) vs

/-- Final forced re-normalization (lines 295-296): each column is divided by
its own sum.  A zero column sum is 0/0, NaN in pandas, 0 in this model. -/
def normalizeRows (rows : List (String × List ℚ)) : List (String × List ℚ) :=
  rows.map (fun r => (r.1, divIdx (colSum rows) 0 r.2))

/-- The returned step matrix: column labels plus named rows of values. -/
structure SMat where
  colLabels : List String
  rows : List (String × List ℚ)
deriving DecidableEq, Repr

/-- get_step_matrix up to (and excluding) the final per-column normalization:
ranking (reverse re-ranking and filtering if requested, with the ValueError of
lines 255-256), aggregation, pivot, accumulated rows, pruning and sorting.
Returns the numeric column ranks plus the assembled rows. -/
def stepMatrixPre (cfg : Config) (wc : Row → String) (max_steps : ℕ)
    (reverse : Option RevSel) (sorting : Bool) (thr : ℚ) (data : List Row) :
    Except String (List ℕ × List (String × List ℚ)) :=
  match reverse with
  | none =>
    let ranked := eventRanks wc data
    let N := nunique (data.map wc)
    let ranked2 := if max_steps ≠ 0 then ranked.filter (fun x => x.2 ≤ max_steps) else ranked
    let pv := pivotRows wc ranked2 N
    let ncols := pv.1.length
    let withAcc := pv.2 ++ accumRows ncols cfg.target_event_list pv.2
    let pruned := pruneRows thr cfg.target_event_list withAcc
    Except.ok (pv.1, if sorting then sort_matrix ncols pruned else pruned)
  | some sel =>
    let targets := resolveTargets cfg sel
    let rc := rankConv wc targets data
    if rc.any (nonDetriment wc targets rc) then
      let ranked := reverseRanked wc targets data
      let N := nunique ((rc.filter (nonDetriment wc targets rc)).map (fun x => wc x.1))
      let ranked2 := if max_steps ≠ 0 then ranked.filter (fun x => x.2 ≤ max_steps) else ranked
      let pv := pivotRows wc ranked2 N
      let ncols := pv.1.length
      let pruned := pruneRows thr cfg.target_event_list pv.2
      Except.ok (pv.1, if sorting then sort_matrix ncols pruned else pruned)
    else
      Except.error ("There is not " ++ headStr targets ++ " event in this group")

/-- get_step_matrix (plotting side effects and the dt_means/for_diff kwargs
are outside the modelled surface). -/
def get_step_matrix (cfg : Config) (wc : Row → String) (max_steps : ℕ)
    (reverse : Option RevSel) (sorting : Bool) (thr : ℚ) (data : List Row) :
    Except String SMat :=
  (stepMatrixPre cfg wc max_steps reverse sorting thr data).map
    (fun pv => ⟨stepLabels reverse pv.1, normalizeRows pv.2⟩)

/-! ### SessionSegmenter: BaseTrajectory.split_sessions (lines 313-384) -/

/-- Strict time comparison on labelled rows (res.sort_values(time_col)). -/
def timeLtB (a b : Row × ℕ) : Bool := decide (a.1.time < b.1.time)

/-- Strict (entity, time) comparison on index-carrying rows. -/
def idRowLtB (a b : ℕ × Row) : Bool := rowLtB a.2 b.2

/-- Original indices of rows whose gap to the next row of the same entity in
the (entity, time)-sorted order strictly exceeds thresh (lines 353-358); the
last row of an entity has a NaN delta, which compares False. -/
def gapFlags (thresh : ℚ) : List (ℕ × Row) → List ℕ
  | [] => []
  | [_] => []
  | (i, r) :: (j, s) :: rest =>
    (if s.entity = r.entity ∧ thresh < s.time - r.time then [i] else []) ++
      gapFlags thresh ((j, s) :: rest)

/-- eos_mask as a set of original row indices. -/
def flaggedIdx (thresh : ℚ) (data : List Row) : List ℕ :=
  gapFlags thresh (sortLt idRowLtB data.enum)

/-- groupby(index_col) cumsum of the boundary flags followed by shift(1) and
fillna(0) (lines 361-363): each row receives the number of flagged rows of its
entity strictly before it in table order. -/
def ordGo (flag : ℕ → Bool) : List (ℕ × Row) → List (String × ℕ) → List ((ℕ × Row) × ℕ)
  | [], _ => []
  | ir :: rest, ctr =>
    let prev := lookupC ir.2.entity ctr
    (ir, prev) ::
      ordGo flag rest (if flag ir.1 then setC ir.2.entity (prev + 1) ctr else ctr)

/-- The synthetic end-of-session rows (lines 366-369): copies of the flagged
rows with the event replaced and the timestamp advanced by one second, keeping
the session ordinal already computed for the copied row. -/
def tmpOf (flag : ℕ → Bool) (e : String) (labeled : List ((ℕ × Row) × ℕ)) :
    List (Row × ℕ) :=
  (labeled.filter (fun q => flag q.1.1)).map
    (fun q => ({ q.1.2 with event := e, time := q.1.2.time + 1 }, q.2))

/-- Marker mode (lines 377-382): inclusive cumulative count per entity of rows
whose event equals the marker. -/
def markGo (m : String) : List Row → List (String × ℕ) → List (Row × ℕ)
  | [], _ => []
  | r :: rest, ctr =>
    let c := lookupC r.entity ctr + (if r.event = m then 1 else 0)
    (r, c) :: markGo m rest (setC r.entity c ctr)

/-- split_sessions up to (and excluding) the session label formatting: rows
paired with their session ordinal, in the order the code leaves them (gap mode
with eos_event re-sorts by time, the other modes keep table order). -/
def split_sessions_core (by_event : Option String) (thresh : Option ℚ)
    (eos_event : Option String) (data : List Row) : Except String (List (Row × ℕ)) :=
  match by_event with
  | some m => Except.ok (markGo m data [])
  | none =>
    match thresh with
    | none => Except.error "Must specify at least one keyword argument: by_event or thresh"
    | some τ =>
      let flag : ℕ → Bool := fun i => decide (i ∈ flaggedIdx τ data)
      let res := match eos_event with
        | none => data.enum
        | some e => data.enum.filter (fun ir => decide (ir.2.event ≠ e))
      let labeled := ordGo flag res []
      let real := labeled.map (fun q => (q.1.2, q.2))
      match eos_event with
      | none => Except.ok real
      | some e => Except.ok (sortLt timeLtB (real ++ tmpOf flag e labeled))

/-- session_col formatting (line 374): entity, underscore, ordinal. -/
def sessionLabel (q : Row × ℕ) : Row × String :=
  (q.1, q.1.entity ++ "_" ++ toString q.2)

/-- split_sessions: rows with their session label. -/
def split_sessions (by_event : Option String) (thresh : Option ℚ)
    (eos_event : Option String) (data : List Row) : Except String (List (Row × String)) :=
  (split_sessions_core by_event thresh eos_event data).map (fun l => l.map sessionLabel)

/-! ### Lemmas about the list utilities -/

theorem insertLt_perm (lt : α → α → Bool) (x : α) (l : List α) :
    List.Perm (insertLt lt x l) (x :: l) := by
  induction l with
  | nil => exact List.Perm.refl _
  | cons y ys ih =>
    simp only [insertLt]
    split
    · exact (ih.cons y).trans (List.Perm.swap x y ys)
    · exact List.Perm.refl _

theorem sortLt_perm (lt : α → α → Bool) (l : List α) :
    List.Perm (sortLt lt l) l := by
  induction l with
  | nil => exact List.Perm.refl _
  | cons x xs ih => exact (insertLt_perm lt x (sortLt lt xs)).trans (ih.cons x)

theorem mem_sortLt (lt : α → α → Bool) (l : List α) (a : α) :
    a ∈ sortLt lt l ↔ a ∈ l :=
  (sortLt_perm lt l).mem_iff

theorem sortLt_nodup (lt : α → α → Bool) (l : List α) (h : l.Nodup) :
    (sortLt lt l).Nodup :=
  ((sortLt_perm lt l).nodup_iff).mpr h

theorem sortLt_length (lt : α → α → Bool) (l : List α) :
    (sortLt lt l).length = l.length :=
  (sortLt_perm lt l).length_eq

theorem mem_dedupF [DecidableEq α] (l : List α) (a : α) :
    a ∈ dedupF l ↔ a ∈ l := by
  induction l with
  | nil => simp [dedupF]
  | cons x xs ih =>
    simp only [dedupF, List.mem_cons, List.mem_filter, decide_eq_true_eq, ih]
    constructor
    · rintro (rfl | ⟨h1, _⟩)
      · exact Or.inl rfl
      · exact Or.inr h1
    · rintro (rfl | h1)
      · exact Or.inl rfl
      · by_cases hax : a = x
        · exact Or.inl hax
        · exact Or.inr ⟨h1, hax⟩

theorem dedupF_nodup [DecidableEq α] (l : List α) : (dedupF l).Nodup := by
  induction l with
  | nil => simp [dedupF]
  | cons x xs ih =>
    simp only [dedupF, List.nodup_cons]
    refine ⟨fun hx => ?_, ih.filter _⟩
    simp only [List.mem_filter, decide_eq_true_eq] at hx
    exact hx.2 rfl

theorem cnt_filter_pos [DecidableEq α] (a : α) (q : α → Bool) (l : List α)
    (h : q a = true) : cnt a (l.filter q) = cnt a l := by
  induction l with
  | nil => rfl
  | cons x xs ih =>
    by_cases hxa : x = a
    · subst hxa
      simp [cnt, List.filter, h, ih] at ih ⊢
      omega
    · simp only [cnt, List.filter] at ih ⊢
      cases hq : q x <;> simp [hq, hxa, ih] <;> simp [cnt] at ih <;> omega

theorem cnt_add_filter_ne [DecidableEq α] (a : α) (m : List α) :
    cnt a m + (m.filter (fun x => decide (x ≠ a))).length = m.length := by
  induction m with
  | nil => rfl
  | cons x xs ih =>
    by_cases hxa : x = a <;>
      simp only [cnt, List.filter, hxa] at ih ⊢ <;>
      simp [hxa] <;> simp [cnt] at ih <;> omega

theorem cnt_filter_ne [DecidableEq α] (a b : α) (m : List α) (h : b ≠ a) :
    cnt b (m.filter (fun x => decide (x ≠ a))) = cnt b m := by
  apply cnt_filter_pos
  simp [h]

theorem sum_cnt_eq_length [DecidableEq α] (l' : List α) : ∀ m : List α, l'.Nodup →
    (∀ x, x ∈ l' ↔ x ∈ m) → (l'.map (fun x => cnt x m)).sum = m.length := by
  induction l' with
  | nil =>
    intro m _ h2
    have : m = [] := by
      apply List.eq_nil_iff_forall_not_mem.mpr
      intro a ha
      exact absurd ((h2 a).mpr ha) (List.not_mem_nil a)
    simp [this]
  | cons a l'' ih =>
    intro m h1 h2
    have hnd := List.nodup_cons.mp h1
    have hsum : ((l''.map (fun x => cnt x m)).sum : ℕ) =
        (l''.map (fun x => cnt x (m.filter (fun y => decide (y ≠ a))))).sum := by
      congr 1
      apply List.map_congr_left
      intro x hx
      have hxa : x ≠ a := fun hcon => hnd.1 (hcon ▸ hx)
      exact (cnt_filter_ne a x m hxa).symm
    have hmem : ∀ x, x ∈ l'' ↔ x ∈ m.filter (fun y => decide (y ≠ a)) := by
      intro x
      simp only [List.mem_filter, decide_eq_true_eq]
      constructor
      · intro hx
        have hxa : x ≠ a := fun hcon => hnd.1 (hcon ▸ hx)
        exact ⟨(h2 x).mp (List.mem_cons_of_mem a hx), hxa⟩
      · rintro ⟨hx, hxa⟩
        have hmem2 : x ∈ a :: l'' := (h2 x).mpr hx
        rcases List.mem_cons.mp hmem2 with h3 | h3
        · exact absurd h3 hxa
        · exact h3
    have hrec := ih (m.filter (fun y => decide (y ≠ a))) hnd.2 hmem
    simp only [List.map_cons, List.sum_cons, hsum, hrec]
    exact cnt_add_filter_ne a m

theorem sum_map_div (l : List α) (f : α → ℚ) (c : ℚ) :
    (l.map (fun x => f x / c)).sum = (l.map f).sum / c := by
  induction l with
  | nil => simp
  | cons x xs ih => simp [ih, add_div]

theorem pairwise_insertLt (lt : α → α → Bool)
    (hA : ∀ a b, lt a b = true → lt b a = false)
    (hT : ∀ a b c, lt b a = false → lt c b = false → lt c a = false)
    (x : α) (l : List α) (h : l.Pairwise (fun a b => lt b a = false)) :
    (insertLt lt x l).Pairwise (fun a b => lt b a = false) := by
  induction l with
  | nil => simp [insertLt]
  | cons y ys ih =>
    rcases List.pairwise_cons.mp h with ⟨hy, hys⟩
    simp only [insertLt]
    split
    case isTrue hlt =>
      apply List.pairwise_cons.mpr
      refine ⟨?_, ih hys⟩
      intro z hz
      rcases List.mem_cons.mp ((insertLt_perm lt x ys).mem_iff.mp hz) with rfl | hz'
      · exact hA y z hlt
      · exact hy z hz'
    case isFalse hlt =>
      have hyx : lt y x = false := by
        revert hlt
        cases lt y x <;> simp
      apply List.pairwise_cons.mpr
      refine ⟨?_, h⟩
      intro z hz
      rcases List.mem_cons.mp hz with rfl | hz'
      · exact hyx
      · exact hT x y z hyx (hy z hz')

theorem sortLt_pairwise (lt : α → α → Bool)
    (hA : ∀ a b, lt a b = true → lt b a = false)
    (hT : ∀ a b c, lt b a = false → lt c b = false → lt c a = false)
    (l : List α) : (sortLt lt l).Pairwise (fun a b => lt b a = false) := by
  induction l with
  | nil => simp [sortLt]
  | cons x xs ih => exact pairwise_insertLt lt hA hT x _ ih

theorem filter_insertLt_pos (lt : α → α → Bool) (p : α → Bool) (x : α) (l : List α)
    (hx : p x = true) (h : ∀ y ∈ l, p y = true → lt y x = false) :
    (insertLt lt x l).filter p = x :: l.filter p := by
  induction l with
  | nil => simp [insertLt, hx]
  | cons y ys ih =>
    simp only [insertLt]
    split
    case isTrue hlt =>
      have hpy : p y = false := by
        cases hpy' : p y
        · rfl
        · rw [h y (List.mem_cons_self y ys) hpy'] at hlt
          exact absurd hlt (by simp)
      rw [List.filter_cons, List.filter_cons]
      simp only [hpy, if_neg Bool.false_ne_true, Bool.false_eq_true, if_false]
      exact ih (fun z hz hpz => h z (List.mem_cons_of_mem _ hz) hpz)
    case isFalse hlt =>
      rw [List.filter_cons]
      simp [hx]

theorem filter_insertLt_neg (lt : α → α → Bool) (p : α → Bool) (x : α) (l : List α)
    (hx : p x = false) : (insertLt lt x l).filter p = l.filter p := by
  induction l with
  | nil => simp [insertLt, hx]
  | cons y ys ih =>
    simp only [insertLt]
    split
    · rw [List.filter_cons, List.filter_cons, ih]
    · rw [List.filter_cons]
      simp [hx]

theorem filter_sortLt (lt : α → α → Bool) (p : α → Bool) (l : List α)
    (h : l.Pairwise (fun a b => p a = true → p b = true → lt b a = false)) :
    (sortLt lt l).filter p = l.filter p := by
  induction l with
  | nil => rfl
  | cons x xs ih =>
    rcases List.pairwise_cons.mp h with ⟨hx, hxs⟩
    simp only [sortLt]
    cases hpx : p x
    · rw [filter_insertLt_neg _ _ _ _ hpx, ih hxs, List.filter_cons]
      simp [hpx]
    · rw [filter_insertLt_pos _ _ _ _ hpx
        (fun y hy hpy => hx y ((mem_sortLt _ _ _).mp hy) hpx hpy), ih hxs,
        List.filter_cons]
      simp [hpx]

theorem sortLt_eq_self (lt : α → α → Bool) (l : List α)
    (h : l.Pairwise (fun a b => lt b a = false)) : sortLt lt l = l := by
  induction l with
  | nil => rfl
  | cons x xs ih =>
    rcases List.pairwise_cons.mp h with ⟨hx, hxs⟩
    simp only [sortLt, ih hxs]
    cases xs with
    | nil => rfl
    | cons y ys =>
      simp only [insertLt, hx y (List.mem_cons_self y ys)]
      simp

/-! ### Facts about get_edgelist and get_adjacency -/

/-- Convenience row constructor: the auxiliary weighting column repeats the
entity identifier. -/
def mkRow (u e : String) (t : ℚ) : Row := ⟨u, e, t, u⟩

theorem sum_map_castQ (l : List α) (f : α → ℕ) :
    (l.map (fun x => ((f x : ℕ) : ℚ))).sum = (((l.map f).sum : ℕ) : ℚ) := by
  induction l with
  | nil => simp
  | cons x xs ih => simp [ih]

theorem rawWeight_none (data : List Row) (p : String × String) :
    rawWeight data none p = ((cnt p (transPairs data) : ℕ) : ℚ) := rfl

theorem keys_nodup (data : List Row) :
    (sortLt pairLtB (dedupF (transPairs data))).Nodup :=
  sortLt_nodup _ _ (dedupF_nodup _)

theorem mem_keys (data : List Row) (p : String × String) :
    p ∈ sortLt pairLtB (dedupF (transPairs data)) ↔ p ∈ transPairs data := by
  rw [mem_sortLt, mem_dedupF]

/-- C4 (amended), norm_type='full' with weight_col=None: when the log has at
least one transition, the output weights sum to exactly 1. -/
theorem C4_full_norm_sum_one (data : List Row) (h : transPairs data ≠ []) :
    ((get_edgelist data none NormType.full).map EdgeRow.weight).sum = 1 := by
  have hlen := sum_cnt_eq_length (sortLt pairLtB (dedupF (transPairs data)))
    (transPairs data) (keys_nodup data) (mem_keys data)
  have hS : fullDivisor data none = (((transPairs data).length : ℕ) : ℚ) := by
    show ((sortLt pairLtB (dedupF (transPairs data))).map
      (fun p => ((cnt p (transPairs data) : ℕ) : ℚ))).sum = _
    rw [sum_map_castQ, hlen]
  have hne : (((transPairs data).length : ℕ) : ℚ) ≠ 0 := by
    rw [Nat.cast_ne_zero]
    simpa [List.length_eq_zero] using h
  have h1 : (get_edgelist data none NormType.full).map EdgeRow.weight
      = (sortLt pairLtB (dedupF (transPairs data))).map
          (fun p => ((cnt p (transPairs data) : ℕ) : ℚ) / fullDivisor data none) := by
    simp only [get_edgelist, List.map_map]
    rfl
  rw [h1, sum_map_div, sum_map_castQ, hlen, hS, div_self hne]

/-- Witness for C4_full_norm_sum_one at a two-row log. -/
theorem C4_full_norm_sum_one_witness :
    transPairs [mkRow "u1" "A" 0, mkRow "u1" "B" 1] ≠ [] ∧
    ((get_edgelist [mkRow "u1" "A" 0, mkRow "u1" "B" 1] none
      NormType.full).map EdgeRow.weight).sum = 1 :=
  ⟨by with_unfolding_all decide, C4_full_norm_sum_one _ (by with_unfolding_all decide)⟩

/-- C4 counterexample: with weight_col set (distinct-entity weighting), a
single entity making two different transitions gives total weight 2, not 1. -/
theorem C4_full_norm_counterexample :
    ((get_edgelist [mkRow "u1" "A" 0, mkRow "u1" "B" 1, mkRow "u1" "C" 2]
      (some Row.wkey) NormType.full).map EdgeRow.weight).sum = 2 ∧
    ((get_edgelist [mkRow "u1" "A" 0, mkRow "u1" "B" 1, mkRow "u1" "C" 2]
      (some Row.wkey) NormType.full).map EdgeRow.weight).sum ≠ 1 := by
  constructor <;> with_unfolding_all decide

/-- C5 (amended), norm_type='node' with weight_col=None: every source event
appearing in the output has outgoing weights summing to exactly 1. -/
theorem C5_node_source_sum_one (data : List Row) (s : String)
    (h : ∃ e, e ∈ get_edgelist data none NormType.node ∧ e.src = s) :
    (((get_edgelist data none NormType.node).filter (fun e => e.src == s)).map
      EdgeRow.weight).sum = 1 := by
  have hmemS : ∀ x : String × String,
      x ∈ (sortLt pairLtB (dedupF (transPairs data))).filter (fun p => p.1 == s) ↔
        x ∈ (transPairs data).filter (fun q => q.1 == s) := by
    intro x
    simp only [List.mem_filter, mem_keys]
  have hns : ((transPairs data).filter (fun q => q.1 == s)) ≠ [] := by
    obtain ⟨e, he, hsrc⟩ := h
    simp only [get_edgelist, List.mem_map] at he
    obtain ⟨p, hp, rfl⟩ := he
    have hp1 : p.1 = s := hsrc
    intro hcon
    have hmem : p ∈ (transPairs data).filter (fun q => q.1 == s) := by
      rw [List.mem_filter]
      exact ⟨(mem_keys data p).mp hp, by simp [hp1]⟩
    rw [hcon] at hmem
    exact absurd hmem (List.not_mem_nil p)
  have hlen0 : ((transPairs data).filter (fun q => q.1 == s)).length ≠ 0 := by
    simpa [List.length_eq_zero] using hns
  have hQne : ((((transPairs data).filter (fun q => q.1 == s)).length : ℕ) : ℚ) ≠ 0 :=
    Nat.cast_ne_zero.mpr hlen0
  have hfil : ((get_edgelist data none NormType.node).filter (fun e => e.src == s)).map
        EdgeRow.weight
      = ((sortLt pairLtB (dedupF (transPairs data))).filter (fun p => p.1 == s)).map
          (fun p => ((cnt p (transPairs data) : ℕ) : ℚ) / nodeDivisor data none p.1) := by
    simp only [get_edgelist, List.filter_map, List.map_map]
    rfl
  have hDs : nodeDivisor data none s
      = ((((transPairs data).filter (fun q => q.1 == s)).length : ℕ) : ℚ) := by
    show (((transRows data).filter (fun t => t.1.row.event == s)).length : ℚ) = _
    congr 1
    simp only [transPairs, List.filter_map, List.length_map]
    rfl
  have hcong : ((sortLt pairLtB (dedupF (transPairs data))).filter (fun p => p.1 == s)).map
        (fun p => ((cnt p (transPairs data) : ℕ) : ℚ) / nodeDivisor data none p.1)
      = ((sortLt pairLtB (dedupF (transPairs data))).filter (fun p => p.1 == s)).map
          (fun p => ((cnt p ((transPairs data).filter (fun q => q.1 == s)) : ℕ) : ℚ) /
            ((((transPairs data).filter (fun q => q.1 == s)).length : ℕ) : ℚ)) := by
    apply List.map_congr_left
    intro p hp
    have hp1 : p.1 = s := by
      have h2 := (List.mem_filter.mp hp).2
      simpa using h2
    rw [hp1, hDs, cnt_filter_pos p (fun q => q.1 == s) (transPairs data) (by simp [hp1])]
  rw [hfil, hcong, sum_map_div, sum_map_castQ,
    sum_cnt_eq_length _ _ ((keys_nodup data).filter _) hmemS, div_self hQne]

/-- Witness for C5_node_source_sum_one: source A of a three-row log. -/
theorem C5_node_source_sum_one_witness :
    (∃ e, e ∈ get_edgelist [mkRow "u1" "A" 0, mkRow "u1" "B" 1, mkRow "u1" "A" 2,
        mkRow "u1" "C" 3] none NormType.node ∧ e.src = "A") ∧
    (((get_edgelist [mkRow "u1" "A" 0, mkRow "u1" "B" 1, mkRow "u1" "A" 2,
        mkRow "u1" "C" 3] none NormType.node).filter (fun e => e.src == "A")).map
      EdgeRow.weight).sum = 1 :=
  ⟨by with_unfolding_all decide,
   C5_node_source_sum_one _ "A" (by with_unfolding_all decide)⟩

/-- C5 counterexample: with weight_col set, the single entity A,B,A,C makes
two distinct transitions out of A, so A's outgoing weights sum to 2, not 1. -/
theorem C5_node_norm_counterexample :
    (((get_edgelist [mkRow "u1" "A" 0, mkRow "u1" "B" 1, mkRow "u1" "A" 2,
        mkRow "u1" "C" 3] (some Row.wkey) NormType.node).filter
      (fun e => e.src == "A")).map EdgeRow.weight).sum = 2 ∧
    (((get_edgelist [mkRow "u1" "A" 0, mkRow "u1" "B" 1, mkRow "u1" "A" 2,
        mkRow "u1" "C" 3] (some Row.wkey) NormType.node).filter
      (fun e => e.src == "A")).map EdgeRow.weight).sum ≠ 1 := by
  constructor <;> with_unfolding_all decide

/-- The set of all distinct event names observed in the log; this follows the
wording of the adjacency claim of the specification and is compared with the
node index the code actually produces. -/
def distinctEvents (data : List Row) : List String := dedupF (data.map Row.event)

/-- C6 counterexample: an entity whose stream has a single row X contributes
no transition, so X is a distinct event name of the log but is absent from
the adjacency matrix index. -/
theorem C6_adjacency_counterexample :
    "X" ∈ distinctEvents [mkRow "u1" "A" 0, mkRow "u1" "B" 1, mkRow "u2" "X" 0] ∧
    "X" ∉ (get_adjacency [mkRow "u1" "A" 0, mkRow "u1" "B" 1, mkRow "u2" "X" 0]
      none NormType.nnone).nodes := by
  constructor <;> with_unfolding_all decide

/-- C6 (amended): the adjacency matrix is square by construction (one node
list indexes rows and columns alike), and that index set is exactly the set
of event names incident to at least one observed transition, as source or as
target, rather than the set of all distinct event names of the log. -/
theorem C6_adjacency_nodes (data : List Row) (weight_col : Option (Row → String))
    (norm : NormType) (e : String) :
    e ∈ (get_adjacency data weight_col norm).nodes ↔
      ∃ p, p ∈ transPairs data ∧ (p.1 = e ∨ p.2 = e) := by
  show e ∈ dedupF (((get_edgelist data weight_col norm).map
    (fun er => [er.src, er.tgt])).flatten) ↔ _
  rw [mem_dedupF]
  simp only [get_edgelist, List.map_map, List.mem_flatten, List.mem_map]
  constructor
  · rintro ⟨l, ⟨p, hp, rfl⟩, hel⟩
    refine ⟨p, (mem_keys data p).mp hp, ?_⟩
    simp only [Function.comp] at hel
    rcases List.mem_cons.mp hel with h1 | h1
    · exact Or.inl h1.symm
    · rcases List.mem_cons.mp h1 with h2 | h2
      · exact Or.inr h2.symm
      · exact absurd h2 (List.not_mem_nil e)
  · rintro ⟨p, hp, hpe⟩
    refine ⟨[p.1, p.2], ⟨p, (mem_keys data p).mpr hp, rfl⟩, ?_⟩
    rcases hpe with h1 | h1
    · exact h1 ▸ List.mem_cons_self _ _
    · exact h1 ▸ List.mem_cons_of_mem _ (List.mem_cons_self _ _)

/-! ### Facts about get_step_matrix -/

theorem getD_divIdx (f : ℕ → ℚ) (l : List ℚ) :
    ∀ k j, (divIdx f k l).getD j 0 = l.getD j 0 / f (k + j) := by
  induction l with
  | nil =>
    intro k j
    simp [divIdx, zero_div]
  | cons v vs ih =>
    intro k j
    cases j with
    | zero => simp [divIdx]
    | succ j' =>
      simp only [divIdx, List.getD_cons_succ]
      rw [ih (k + 1) j']
      have harith : k + 1 + j' = k + (j' + 1) := by omega
      rw [harith]

/-- C1 (amended): every column of the returned step matrix whose
pre-normalization sum is nonzero sums to exactly 1 after the final
re-normalization; a column that lost all its mass to pruning has column sum
0/0 (NaN in pandas, 0 here) and does not sum to 1. -/
theorem C1_column_sum_one (cfg : Config) (wc : Row → String) (max_steps : ℕ)
    (reverse : Option RevSel) (sorting : Bool) (thr : ℚ) (data : List Row)
    (cols : List ℕ) (rows : List (String × List ℚ)) (j : ℕ)
    (hok : stepMatrixPre cfg wc max_steps reverse sorting thr data
      = Except.ok (cols, rows))
    (hS : colSum rows j ≠ 0) :
    ∃ M, get_step_matrix cfg wc max_steps reverse sorting thr data = Except.ok M ∧
      colSum M.rows j = 1 := by
  refine ⟨⟨stepLabels reverse cols, normalizeRows rows⟩, ?_, ?_⟩
  · rw [get_step_matrix, hok]
    rfl
  · show colSum (normalizeRows rows) j = 1
    have h1 : (normalizeRows rows).map (fun r => colVal r j)
        = rows.map (fun r => colVal r j / colSum rows j) := by
      simp only [normalizeRows, List.map_map]
      apply List.map_congr_left
      intro r _
      show (divIdx (colSum rows) 0 r.2).getD j 0 = _
      rw [getD_divIdx]
      simp [colVal]
    rw [colSum, h1, sum_map_div]
    rw [show (rows.map (fun r => colVal r j)).sum = colSum rows j from rfl]
    exact div_self hS

/-- Witness for C1_column_sum_one: a two-user forward log, first column. -/
theorem C1_column_sum_one_witness :
    ∃ M, get_step_matrix ⟨"P", "N", []⟩ Row.entity 30 none true 0
        [mkRow "u1" "A" 0, mkRow "u1" "B" 1] = Except.ok M ∧ colSum M.rows 0 = 1 :=
  C1_column_sum_one ⟨"P", "N", []⟩ Row.entity 30 none true 0
    [mkRow "u1" "A" 0, mkRow "u1" "B" 1] [1, 2] [("A", [1, 0]), ("B", [0, 1])] 0
    (by with_unfolding_all rfl) (by with_unfolding_all decide)

/-- C1 counterexample: log u1:[A,B], u2:[A,C] with thr = 3/5 prunes rows B
and C (max value 1/2 each); column 2 of the returned matrix then consists of
zeros only, its pandas value is NaN = 0/0 per entry, and it sums to 0, not
1. -/
theorem C1_column_sum_counterexample :
    (get_step_matrix ⟨"P", "N", []⟩ Row.entity 30 none true (3/5)
        [mkRow "u1" "A" 0, mkRow "u1" "B" 1, mkRow "u2" "A" 0, mkRow "u2" "C" 1]).map
      (fun M => colSum M.rows 1) = Except.ok 0 ∧ (0 : ℚ) ≠ 1 := by
  constructor
  · with_unfolding_all rfl
  · norm_num

theorem cumsumQ_chain (v : List ℚ) : ∀ s : ℚ, (∀ x ∈ v, 0 ≤ x) →
    List.Chain' (· ≤ ·) (s :: cumsumQ s v) := by
  induction v with
  | nil =>
    intro s _
    simp [cumsumQ]
  | cons x xs ih =>
    intro s hv
    show List.Chain' (· ≤ ·) (s :: (s + x) :: cumsumQ (s + x) xs)
    rw [List.chain'_cons]
    exact ⟨le_add_of_nonneg_right (hv x (List.mem_cons_self x xs)),
      ih (s + x) (fun z hz => hv z (List.mem_cons_of_mem x hz))⟩

theorem cumsumQ_nonneg (v : List ℚ) : ∀ s : ℚ, 0 ≤ s → (∀ x ∈ v, 0 ≤ x) →
    ∀ y ∈ cumsumQ s v, 0 ≤ y := by
  induction v with
  | nil =>
    intro s _ _ y hy
    simp [cumsumQ] at hy
  | cons x xs ih =>
    intro s hs hv y hy
    simp only [cumsumQ, List.mem_cons] at hy
    rcases hy with rfl | hy
    · exact add_nonneg hs (hv x (List.mem_cons_self x xs))
    · exact ih (s + x) (add_nonneg hs (hv x (List.mem_cons_self x xs)))
        (fun z hz => hv z (List.mem_cons_of_mem x hz)) y hy

theorem accumShift_chain (v : List ℚ) (hv : ∀ x ∈ v, 0 ≤ x) :
    List.Chain' (· ≤ ·) (accumShift v) := by
  cases v with
  | nil => simp [accumShift]
  | cons x xs =>
    show List.Chain' (· ≤ ·) (0 :: (cumsumQ 0 (x :: xs)).dropLast)
    exact (cumsumQ_chain (x :: xs) 0 hv).sublist
      (List.Sublist.cons₂ 0 (List.dropLast_sublist _))

theorem accumShift_nonneg (v : List ℚ) (hv : ∀ x ∈ v, 0 ≤ x) :
    ∀ y ∈ accumShift v, 0 ≤ y := by
  cases v with
  | nil =>
    intro y hy
    simp [accumShift] at hy
  | cons x xs =>
    intro y hy
    have hy' : y ∈ (0 : ℚ) :: (cumsumQ 0 (x :: xs)).dropLast := hy
    rcases List.mem_cons.mp hy' with rfl | hmem
    · exact le_refl 0
    · exact cumsumQ_nonneg (x :: xs) 0 (le_refl 0) hv y
        ((List.dropLast_sublist _).subset hmem)

theorem accumRowOf_chain_nonneg (acc : List (String × List ℚ)) (ncols : ℕ)
    (t : String) (hacc : ∀ r ∈ acc, ∀ v ∈ r.2, 0 ≤ v) :
    List.Chain' (· ≤ ·) (accumRowOf acc ncols t).2 ∧
      ∀ v ∈ (accumRowOf acc ncols t).2, 0 ≤ v := by
  cases hf : acc.find? (fun p => p.1 == t) with
  | none =>
    simp only [accumRowOf, hf]
    refine ⟨List.chain'_replicate_of_rel ncols (le_refl (0 : ℚ)), ?_⟩
    intro v hv
    obtain rfl := List.eq_of_mem_replicate hv
    exact le_refl 0
  | some p =>
    simp only [accumRowOf, hf]
    have hp2 := hacc p (List.mem_of_find?_eq_some hf)
    exact ⟨accumShift_chain p.2 hp2, accumShift_nonneg p.2 hp2⟩

theorem accumRows_chain (ncols : ℕ) (ts : List String) :
    ∀ acc : List (String × List ℚ), (∀ r ∈ acc, ∀ v ∈ r.2, 0 ≤ v) →
      ∀ r ∈ accumRows ncols ts acc,
        List.Chain' (· ≤ ·) r.2 ∧ ∀ v ∈ r.2, 0 ≤ v := by
  induction ts with
  | nil =>
    intro acc _ r hr
    simp [accumRows] at hr
  | cons t ts' ih =>
    intro acc hacc r hr
    simp only [accumRows] at hr
    rcases List.mem_cons.mp hr with rfl | hr'
    · exact accumRowOf_chain_nonneg acc ncols t hacc
    · refine ih (acc ++ [accumRowOf acc ncols t]) ?_ r hr'
      intro q hq
      rcases List.mem_append.mp hq with h1 | h1
      · exact hacc q h1
      · obtain rfl : q = accumRowOf acc ncols t := by simpa using h1
        exact (accumRowOf_chain_nonneg acc ncols t hacc).2

theorem stepFreq_nonneg (wc : Row → String) (ranked : List (Row × ℕ)) (N : ℕ)
    (r : ℕ) (e : String) : 0 ≤ stepFreq wc ranked N r e := by
  unfold stepFreq
  exact div_nonneg (Nat.cast_nonneg _) (Nat.cast_nonneg _)

theorem pivotRows_nonneg (wc : Row → String) (ranked : List (Row × ℕ)) (N : ℕ) :
    ∀ r ∈ (pivotRows wc ranked N).2, ∀ v ∈ r.2, 0 ≤ v := by
  intro r hr v hv
  simp only [pivotRows, List.mem_map] at hr
  obtain ⟨e, _, rfl⟩ := hr
  simp only [List.mem_map] at hv
  obtain ⟨rk, _, rfl⟩ := hv
  exact stepFreq_nonneg wc ranked N rk e

/-- C7 (amended): every accumulation row appended by _add_accums (to the
pivot built by the forward branch of get_step_matrix) is non-decreasing
across its columns BEFORE the final per-column re-normalization; the final
step divides each column by its own, generally different, sum and can break
the monotonicity of the rows actually returned. -/
theorem C7_accum_rows_monotone (wc : Row → String) (ranked : List (Row × ℕ))
    (N : ℕ) (targets : List String) (r : String × List ℚ)
    (hr : r ∈ accumRows (pivotRows wc ranked N).1.length targets
      (pivotRows wc ranked N).2) :
    List.Chain' (· ≤ ·) r.2 :=
  (accumRows_chain (pivotRows wc ranked N).1.length targets
    (pivotRows wc ranked N).2 (pivotRows_nonneg wc ranked N) r hr).1

/-- Witness for C7_accum_rows_monotone: the accumulated row of target T1 on
the log u1:[T1,T2,A]. -/
theorem C7_accum_rows_monotone_witness :
    ("Accumulated T1", ([0, 1, 1] : List ℚ)) ∈ accumRows
        (pivotRows Row.entity (eventRanks Row.entity
          [mkRow "u1" "T1" 0, mkRow "u1" "T2" 1, mkRow "u1" "A" 2]) 1).1.length
        ["T1"]
        (pivotRows Row.entity (eventRanks Row.entity
          [mkRow "u1" "T1" 0, mkRow "u1" "T2" 1, mkRow "u1" "A" 2]) 1).2 ∧
    List.Chain' (· ≤ ·) ([0, 1, 1] : List ℚ) := by
  have hm : ("Accumulated T1", ([0, 1, 1] : List ℚ)) ∈ accumRows
      (pivotRows Row.entity (eventRanks Row.entity
        [mkRow "u1" "T1" 0, mkRow "u1" "T2" 1, mkRow "u1" "A" 2]) 1).1.length
      ["T1"]
      (pivotRows Row.entity (eventRanks Row.entity
        [mkRow "u1" "T1" 0, mkRow "u1" "T2" 1, mkRow "u1" "A" 2]) 1).2 := by
    with_unfolding_all decide
  exact ⟨hm, C7_accum_rows_monotone _ _ _ _ _ hm⟩

/-- C7 counterexample: with targets [T1, T2] and the single stream T1,T2,A
the returned (re-normalized) matrix contains the row Accumulated T1 with
values 0, 1/2, 1/3, which decreases from the second to the third column. -/
theorem C7_accum_monotone_counterexample :
    (get_step_matrix ⟨"P", "N", ["T1", "T2"]⟩ Row.entity 30 none true 0
        [mkRow "u1" "T1" 0, mkRow "u1" "T2" 1, mkRow "u1" "A" 2]).map
      (fun M => M.rows.filter (fun r => r.1 == "Accumulated T1"))
      = Except.ok [("Accumulated T1", [0, 1/2, 1/3])] ∧
    ¬ List.Chain' (· ≤ ·) [(0 : ℚ), 1/2, 1/3] := by
  constructor
  · with_unfolding_all rfl
  · intro hc
    rw [List.chain'_cons, List.chain'_cons] at hc
    have h2 := hc.2.1
    norm_num at h2

instance : Inhabited Row := ⟨⟨"", "", 0, ""⟩⟩

theorem bumpCount_fst (k : String) (ctr : List (String × ℕ)) :
    (bumpCount k ctr).1 = lookupC k ctr + 1 := by
  induction ctr with
  | nil => rfl
  | cons p rest ih =>
    obtain ⟨q, n⟩ := p
    simp only [bumpCount, lookupC]
    split
    · rfl
    · simpa using ih

theorem lookupC_bumpCount (k k' : String) (ctr : List (String × ℕ)) :
    lookupC k' (bumpCount k ctr).2
      = if k' = k then lookupC k' ctr + 1 else lookupC k' ctr := by
  induction ctr with
  | nil =>
    simp only [bumpCount, lookupC]
    by_cases h : k = k'
    · subst h
      simp
    · rw [if_neg h, if_neg (fun hcon : k' = k => h hcon.symm)]
  | cons p rest ih =>
    obtain ⟨q, n⟩ := p
    by_cases hqk : q = k
    · subst hqk
      simp only [bumpCount, if_pos rfl, lookupC]
      by_cases hq : q = k'
      · subst hq
        simp
      · simp only [if_neg hq, if_neg (fun hcon : k' = q => hq hcon.symm)]
    · simp only [bumpCount, if_neg hqk, lookupC]
      by_cases hq : q = k'
      · subst hq
        rw [if_neg (show ¬ q = k from hqk)]
        simp
      · simp only [if_neg hq, ih]

theorem rankGo_getD (wc : Row → String) (l : List Row) :
    ∀ ctr : List (String × ℕ), ∀ i, i < l.length →
      ((rankGo wc l ctr).getD i default).2
        = lookupC (wc (l.getD i default)) ctr
          + ((l.take (i + 1)).filter
              (fun r => wc r == wc (l.getD i default))).length := by
  induction l with
  | nil =>
    intro ctr i h
    exact absurd h (by simp)
  | cons r rs ih =>
    intro ctr i hi
    cases i with
    | zero =>
      simp only [rankGo, List.getD_cons_zero]
      rw [bumpCount_fst]
      simp
    | succ i' =>
      have hi' : i' < rs.length := by simpa using hi
      simp only [rankGo, List.getD_cons_succ]
      rw [ih (bumpCount (wc r) ctr).2 i' hi', lookupC_bumpCount]
      rw [List.take_succ_cons, List.filter_cons]
      by_cases hkey : wc (rs.getD i' default) = wc r
      · rw [if_pos hkey]
        have hbeq : (wc r == wc (rs.getD i' default)) = true := by
          simp only [beq_iff_eq]
          exact hkey.symm
        rw [hbeq]
        simp only [if_true, List.length_cons]
        omega
      · rw [if_neg hkey]
        have hbeq : (wc r == wc (rs.getD i' default)) = false := by
          simp only [beq_eq_false_iff_ne, ne_eq]
          exact fun hcon => hkey hcon.symm
        rw [hbeq]
        simp

/-- C2 (amended): in forward mode the event_rank of the i-th input row is the
1-based count, among the rows up to and including position i IN INPUT ORDER,
of rows sharing its weighting key; lines 226-227 never sort by timestamp
first, so this equals the chronological rank only when each entity's rows
already appear in timestamp-ascending order in the input. -/
theorem C2_rank_input_order (wc : Row → String) (data : List Row) (i : ℕ)
    (hi : i < data.length) :
    ((eventRanks wc data).getD i default).2
      = ((data.take (i + 1)).filter
          (fun r => wc r == wc (data.getD i default))).length := by
  have h := rankGo_getD wc data [] i hi
  simpa [eventRanks, lookupC] using h

/-- Witness for C2_rank_input_order at position 1 of a two-row log. -/
theorem C2_rank_input_order_witness :
    1 < ([mkRow "u1" "B" 2, mkRow "u1" "A" 1] : List Row).length ∧
    ((eventRanks Row.entity [mkRow "u1" "B" 2, mkRow "u1" "A" 1]).getD 1 default).2
      = ((([mkRow "u1" "B" 2, mkRow "u1" "A" 1] : List Row).take 2).filter
          (fun r => Row.entity r == Row.entity (([mkRow "u1" "B" 2,
            mkRow "u1" "A" 1] : List Row).getD 1 default))).length :=
  ⟨by with_unfolding_all decide,
   C2_rank_input_order Row.entity _ 1 (by with_unfolding_all decide)⟩

/-- Spec-side definition (the refinement target for C2): the 1-based position
of each row among its weighting key's rows taken in timestamp-ascending
order, ties broken by original position, exactly as the claim words the
rank. -/
def chronoRanks (wc : Row → String) (data : List Row) : List ℕ :=
  data.enum.map (fun ir =>
    (data.enum.filter (fun jr =>
      wc jr.2 == wc ir.2 &&
        (decide (jr.2.time < ir.2.time) ||
          (decide (jr.2.time = ir.2.time) && decide (jr.1 ≤ ir.1))))).length)

/-- C2 counterexample: entity u1 enters the log as B@2 then A@1; the code
gives B rank 1 (raw input order), while B's chronological rank is 2. -/
theorem C2_rank_counterexample :
    (eventRanks Row.entity [mkRow "u1" "B" 2, mkRow "u1" "A" 1]).map Prod.snd
        = [1, 2] ∧
    chronoRanks Row.entity [mkRow "u1" "B" 2, mkRow "u1" "A" 1] = [2, 1] ∧
    ([1, 2] : List ℕ) ≠ [2, 1] :=
  ⟨by with_unfolding_all rfl, by with_unfolding_all rfl, by decide⟩

theorem rankConvGo_map_fst (wc : Row → String) (targets : List String) :
    ∀ (l : List Row) (rctr cctr : List (String × ℕ)),
      (rankConvGo wc targets l rctr cctr).map (fun x => x.1) = l := by
  intro l
  induction l with
  | nil =>
    intro rctr cctr
    rfl
  | cons r rs ih =>
    intro rctr cctr
    simp only [rankConvGo, List.map_cons, ih]

theorem mem_rankConv_row (wc : Row → String) (targets : List String)
    (data : List Row) (x : Row × ℕ × ℕ) (hx : x ∈ rankConv wc targets data) :
    x.1 ∈ data := by
  have hmap := List.mem_map_of_mem (fun y : Row × ℕ × ℕ => y.1) hx
  rwa [rankConv, rankConvGo_map_fst] at hmap

/-- C3: when no row of the log carries any of the selected target events — so
no per-entity segment's final row can be a target — get_step_matrix with
reverse set fails synchronously, and the ValueError message names the first
selected target, which is one of the missing ones (lines 250-256). -/
theorem C3_reverse_target_error (cfg : Config) (wc : Row → String)
    (max_steps : ℕ) (sel : RevSel) (sorting : Bool) (thr : ℚ) (data : List Row)
    (h : ∀ r ∈ data, r.event ∉ resolveTargets cfg sel) :
    get_step_matrix cfg wc max_steps (some sel) sorting thr data
      = Except.error ("There is not " ++ headStr (resolveTargets cfg sel) ++
          " event in this group") ∧
      headStr (resolveTargets cfg sel) ∈ resolveTargets cfg sel := by
  constructor
  · have hany : (rankConv wc (resolveTargets cfg sel) data).any
        (nonDetriment wc (resolveTargets cfg sel)
          (rankConv wc (resolveTargets cfg sel) data)) = false := by
      rw [List.any_eq_false]
      intro x hx
      simp only [nonDetriment, decide_eq_true_eq]
      intro hmem
      have hlast : ((groupOf wc (rankConv wc (resolveTargets cfg sel) data) x).getLastD x)
          ∈ x :: groupOf wc (rankConv wc (resolveTargets cfg sel) data) x :=
        List.getLastD_mem_cons _ _
      rcases List.mem_cons.mp hlast with heq | hgrp
      · rw [heq] at hmem
        exact h x.1 (mem_rankConv_row _ _ _ x hx) hmem
      · have hrc : ((groupOf wc (rankConv wc (resolveTargets cfg sel) data) x).getLastD x)
            ∈ rankConv wc (resolveTargets cfg sel) data :=
          List.mem_of_mem_filter hgrp
        exact h _ (mem_rankConv_row _ _ _ _ hrc) hmem
    show (stepMatrixPre cfg wc max_steps (some sel) sorting thr data).map _ = _
    simp only [stepMatrixPre, hany, Bool.false_eq_true, if_false]
    rfl
  · cases sel <;> simp [resolveTargets, headStr]

/-- Witness for C3_reverse_target_error: reverse='pos' on a log that never
contains the configured positive target P. -/
theorem C3_reverse_target_error_witness :
    get_step_matrix ⟨"P", "N", []⟩ Row.entity 30 (some RevSel.pos) true 0
        [mkRow "u1" "A" 0, mkRow "u1" "B" 1]
      = Except.error ("There is not " ++
          headStr (resolveTargets ⟨"P", "N", []⟩ RevSel.pos) ++
          " event in this group") ∧
      headStr (resolveTargets ⟨"P", "N", []⟩ RevSel.pos)
        ∈ resolveTargets ⟨"P", "N", []⟩ RevSel.pos :=
  C3_reverse_target_error ⟨"P", "N", []⟩ Row.entity 30 RevSel.pos true 0
    [mkRow "u1" "A" 0, mkRow "u1" "B" 1] (by with_unfolding_all decide)

/-! ### Facts about split_sessions -/

theorem ordGo_map_fst (flag : ℕ → Bool) :
    ∀ (l : List (ℕ × Row)) (ctr : List (String × ℕ)),
      (ordGo flag l ctr).map (fun q => q.1) = l := by
  intro l
  induction l with
  | nil =>
    intro ctr
    rfl
  | cons ir rest ih =>
    intro ctr
    simp only [ordGo, List.map_cons, ih]

/-- C10: in gap mode with eos_event set, every returned row carrying the eos
event name is one of the synthesized boundary rows of lines 366-369 — the
pre-existing rows with that event name are deleted first (lines 350-351), so
only fresh copies of flagged rows (event replaced, timestamp + 1s, session
ordinal of the copied row) carry it. -/
theorem C10_eos_rows_synthetic (thresh : ℚ) (e : String) (data : List Row)
    (out : List (Row × ℕ)) (q : Row × ℕ)
    (hok : split_sessions_core none (some thresh) (some e) data = Except.ok out)
    (hq : q ∈ out) (hev : q.1.event = e) :
    q ∈ tmpOf (fun i => decide (i ∈ flaggedIdx thresh data)) e
      (ordGo (fun i => decide (i ∈ flaggedIdx thresh data))
        (data.enum.filter (fun ir => decide (ir.2.event ≠ e))) []) := by
  simp only [split_sessions_core] at hok
  have hout := (Except.ok.inj hok).symm
  subst hout
  have hq2 := (mem_sortLt _ _ _).mp hq
  rcases List.mem_append.mp hq2 with hql | hqr
  · rcases List.mem_map.mp hql with ⟨p, hp, rfl⟩
    have hpin : p.1 ∈ data.enum.filter (fun ir => decide (ir.2.event ≠ e)) := by
      have hmap := List.mem_map_of_mem (fun q => q.1) hp
      rwa [ordGo_map_fst] at hmap
    have hne := (List.mem_filter.mp hpin).2
    simp only [decide_eq_true_eq] at hne
    exact absurd hev hne
  · exact hqr

/-- Witness for C10_eos_rows_synthetic: the end row of the A,B,A scenario. -/
theorem C10_eos_rows_synthetic_witness :
    ((⟨"u1", "end", 11, "u1"⟩, 0) : Row × ℕ) ∈ tmpOf
      (fun i => decide (i ∈ flaggedIdx 1800 [mkRow "u1" "A" 0, mkRow "u1" "B" 10,
        mkRow "u1" "A" 2000]))
      "end"
      (ordGo (fun i => decide (i ∈ flaggedIdx 1800 [mkRow "u1" "A" 0,
        mkRow "u1" "B" 10, mkRow "u1" "A" 2000]))
        (([mkRow "u1" "A" 0, mkRow "u1" "B" 10, mkRow "u1" "A" 2000] :
          List Row).enum.filter (fun ir => decide (ir.2.event ≠ "end"))) []) :=
  C10_eos_rows_synthetic 1800 "end"
    [mkRow "u1" "A" 0, mkRow "u1" "B" 10, mkRow "u1" "A" 2000]
    [(⟨"u1", "A", 0, "u1"⟩, 0), (⟨"u1", "B", 10, "u1"⟩, 0),
      (⟨"u1", "end", 11, "u1"⟩, 0), (⟨"u1", "A", 2000, "u1"⟩, 1)]
    (⟨"u1", "end", 11, "u1"⟩, 0)
    (by with_unfolding_all rfl) (by with_unfolding_all decide) rfl

theorem listCharLtB_irrefl : ∀ l : List Char, listCharLtB l l = false := by
  intro l
  induction l with
  | nil => rfl
  | cons c cs ih =>
    show listCharLtB (c :: cs) (c :: cs) = false
    simp only [listCharLtB]
    rw [if_neg (lt_irrefl _), if_neg (lt_irrefl _)]
    exact ih

theorem strLtB_irrefl (s : String) : strLtB s s = false :=
  listCharLtB_irrefl s.data

theorem rowLtB_eq_false (a b : Row) (he : b.entity = a.entity)
    (h : ¬ b.time < a.time) : rowLtB b a = false := by
  simp only [rowLtB, he, strLtB_irrefl, beq_self_eq_true, Bool.true_and,
    Bool.false_or, decide_eq_false h]

theorem timeLtB_eq_false (a b : Row × ℕ) (h : ¬ b.1.time < a.1.time) :
    timeLtB b a = false := by
  simp only [timeLtB, decide_eq_false h]

theorem timeLtB_eq_true (a b : Row × ℕ) (h : a.1.time < b.1.time) :
    timeLtB a b = true := by
  simp only [timeLtB, decide_eq_true h]

/-- C9 (amended): the A@t0,B@t1,A@t2 gap scenario with eos_event='end', under
the scenario's implicit side conditions t0 < t1 (chronological stream),
t1 - t0 ≤ thresh (A and B fall in one session) and 1 ≤ thresh (the one-second
marker lands before the next session begins): the result, in chronological
order, is session u1_0 = A, B plus a synthetic end row that copies B with
timestamp t1 + 1, and session u1_1 = the final A. -/
theorem C9_gap_eos_scenario (t0 t1 t2 τ : ℚ) (h01 : t0 < t1)
    (hg1 : t1 - t0 ≤ τ) (hg2 : τ < t2 - t1) (hτ : 1 ≤ τ) :
    split_sessions none (some τ) (some "end")
        [mkRow "u1" "A" t0, mkRow "u1" "B" t1, mkRow "u1" "A" t2]
      = Except.ok [(mkRow "u1" "A" t0, "u1_0"), (mkRow "u1" "B" t1, "u1_0"),
          (mkRow "u1" "end" (t1 + 1), "u1_0"), (mkRow "u1" "A" t2, "u1_1")] := by
  have he2 : t1 + 1 < t2 := by linarith
  have henum : ([mkRow "u1" "A" t0, mkRow "u1" "B" t1,
      mkRow "u1" "A" t2] : List Row).enum
      = [(0, mkRow "u1" "A" t0), (1, mkRow "u1" "B" t1),
          (2, mkRow "u1" "A" t2)] := rfl
  have hsort : sortLt idRowLtB [(0, mkRow "u1" "A" t0), (1, mkRow "u1" "B" t1),
      (2, mkRow "u1" "A" t2)] = [(0, mkRow "u1" "A" t0), (1, mkRow "u1" "B" t1),
      (2, mkRow "u1" "A" t2)] := by
    apply sortLt_eq_self
    refine List.Pairwise.cons ?_ (List.Pairwise.cons ?_ (List.pairwise_singleton _ _))
    · intro y hy
      rcases List.mem_cons.mp hy with rfl | hy'
      · exact rowLtB_eq_false _ _ rfl (not_lt.mpr (le_of_lt h01))
      · rcases List.mem_cons.mp hy' with rfl | hy''
        · refine rowLtB_eq_false _ _ rfl ?_
          show ¬ t2 < t0
          linarith
        · exact absurd hy'' (List.not_mem_nil _)
    · intro y hy
      rcases List.mem_cons.mp hy with rfl | hy'
      · refine rowLtB_eq_false _ _ rfl ?_
        show ¬ t2 < t1
        linarith
      · exact absurd hy' (List.not_mem_nil _)
  have hflag : flaggedIdx τ [mkRow "u1" "A" t0, mkRow "u1" "B" t1,
      mkRow "u1" "A" t2] = [1] := by
    rw [flaggedIdx, henum, hsort]
    show (if ("u1" : String) = "u1" ∧ τ < t1 - t0 then [0] else []) ++
        ((if ("u1" : String) = "u1" ∧ τ < t2 - t1 then [1] else []) ++ []) = [1]
    rw [if_neg (fun hc : ("u1" : String) = "u1" ∧ τ < t1 - t0 =>
      absurd hc.2 (not_lt.mpr hg1)), if_pos ⟨rfl, hg2⟩]
    rfl
  have hA : (decide (("A" : String) ≠ "end")) = true := by decide
  have hB : (decide (("B" : String) ≠ "end")) = true := by decide
  have hm0 : (decide ((0 : ℕ) ∈ [1])) = false := by decide
  have hm1 : (decide ((1 : ℕ) ∈ [1])) = true := by decide
  have hm2 : (decide ((2 : ℕ) ∈ [1])) = false := by decide
  have hq1 : (decide (t1 + 1 < t2)) = true := decide_eq_true he2
  have hq2 : (decide (t1 + 1 < t1)) = false := decide_eq_false (by linarith)
  have hq3 : (decide (t1 < t0)) = false :=
    decide_eq_false (not_lt.mpr (le_of_lt h01))
  have hl0 : ("u1" ++ "_" ++ toString (0 : ℕ)) = "u1_0" := by decide
  have hl1 : ("u1" ++ "_" ++ toString (1 : ℕ)) = "u1_1" := by decide
  simp only [split_sessions, split_sessions_core, henum, hflag]
  simp only [mkRow, List.filter, hA, hB, ordGo, lookupC, setC, hm0, hm1, hm2,
    Bool.false_eq_true, Bool.true_eq_false, if_true, if_false, List.map,
    tmpOf, List.filter, sortLt, insertLt, timeLtB, hq1, hq2, hq3,
    sessionLabel, Except.map, hl0, hl1]

/-- Witness for C9_gap_eos_scenario at t0=0, t1=10, t2=2000, thresh=1800. -/
theorem C9_gap_eos_scenario_witness :
    split_sessions none (some 1800) (some "end")
        [mkRow "u1" "A" 0, mkRow "u1" "B" 10, mkRow "u1" "A" 2000]
      = Except.ok [(mkRow "u1" "A" 0, "u1_0"), (mkRow "u1" "B" 10, "u1_0"),
          (mkRow "u1" "end" (10 + 1), "u1_0"), (mkRow "u1" "A" 2000, "u1_1")] :=
  C9_gap_eos_scenario 0 10 2000 1800 (by norm_num) (by norm_num) (by norm_num)
    (by norm_num)

/-- C9 counterexample: at t0=0, t1=2000, t2=4000, thresh=1800 the claim's
stated premise holds (the gap t1 to t2 is 2000 > 1800), but the first gap
also exceeds thresh, so B is labelled u1_1 and session u1_0 is A plus an end
marker only — the claimed contents of u1_0 are false as stated. -/
theorem C9_gap_eos_counterexample :
    split_sessions none (some 1800) (some "end")
        [mkRow "u1" "A" 0, mkRow "u1" "B" 2000, mkRow "u1" "A" 4000]
      = Except.ok [(⟨"u1", "A", 0, "u1"⟩, "u1_0"), (⟨"u1", "end", 1, "u1"⟩, "u1_0"),
          (⟨"u1", "B", 2000, "u1"⟩, "u1_1"), (⟨"u1", "end", 2001, "u1"⟩, "u1_1"),
          (⟨"u1", "A", 4000, "u1"⟩, "u1_2")] ∧
    (1800 : ℚ) < 4000 - 2000 ∧ ("u1_1" : String) ≠ "u1_0" := by
  refine ⟨?_, by norm_num, by decide⟩
  with_unfolding_all rfl

theorem lookupC_setC_self (k : String) (v : ℕ) (ctr : List (String × ℕ)) :
    lookupC k (setC k v ctr) = v := by
  induction ctr with
  | nil => simp [setC, lookupC]
  | cons p rest ih =>
    obtain ⟨q, n⟩ := p
    by_cases hq : q = k
    · subst hq
      simp [setC, lookupC]
    · simp [setC, lookupC, hq, ih]

theorem lookupC_setC_ne (k k' : String) (v : ℕ) (ctr : List (String × ℕ))
    (h : k' ≠ k) : lookupC k' (setC k v ctr) = lookupC k' ctr := by
  induction ctr with
  | nil =>
    simp only [setC, lookupC]
    rw [if_neg (fun hc : k = k' => h hc.symm)]
  | cons p rest ih =>
    obtain ⟨q, n⟩ := p
    by_cases hq : q = k
    · subst hq
      simp only [setC, if_pos rfl, lookupC]
      rw [if_neg (fun hc : q = k' => h hc.symm), if_neg (fun hc : q = k' => h hc.symm)]
    · simp only [setC, if_neg hq, lookupC]
      by_cases hq' : q = k'
      · simp [hq']
      · simp [hq', ih]

theorem pairwise_two_mem (R : α → α → Prop) (l : List α) (h : l.Pairwise R)
    (a b : α) (ha : a ∈ l) (hb : b ∈ l) : a = b ∨ R a b ∨ R b a := by
  induction l with
  | nil => exact absurd ha (List.not_mem_nil a)
  | cons x xs ih =>
    rcases List.pairwise_cons.mp h with ⟨hx, hxs⟩
    rcases List.mem_cons.mp ha with rfl | ha'
    · rcases List.mem_cons.mp hb with rfl | hb'
      · exact Or.inl rfl
      · exact Or.inr (Or.inl (hx b hb'))
    · rcases List.mem_cons.mp hb with rfl | hb'
      · exact Or.inr (Or.inr (hx a ha'))
      · exact ih hxs ha' hb'

theorem mem_enumFrom_le (l : List α) :
    ∀ (n : ℕ) (q : ℕ × α), q ∈ l.enumFrom n → n ≤ q.1 := by
  induction l with
  | nil =>
    intro n q hq
    simp [List.enumFrom] at hq
  | cons x xs ih =>
    intro n q hq
    rcases List.mem_cons.mp hq with rfl | hq'
    · exact le_refl n
    · exact le_trans (Nat.le_succ n) (ih (n + 1) q hq')

theorem enumFrom_pairwise_idx (l : List α) :
    ∀ n, (l.enumFrom n).Pairwise (fun a b => a.1 < b.1) := by
  induction l with
  | nil =>
    intro n
    simp [List.enumFrom]
  | cons x xs ih =>
    intro n
    refine List.Pairwise.cons ?_ (ih (n + 1))
    intro b hb
    exact lt_of_lt_of_le (Nat.lt_succ_self n) (mem_enumFrom_le xs (n + 1) b hb)

theorem enum_pairwise_idx (l : List α) : l.enum.Pairwise (fun a b => a.1 < b.1) :=
  enumFrom_pairwise_idx l 0

theorem markGo_map_fst (m : String) :
    ∀ (l : List Row) (ctr : List (String × ℕ)),
      (markGo m l ctr).map Prod.fst = l := by
  intro l
  induction l with
  | nil =>
    intro ctr
    rfl
  | cons r rest ih =>
    intro ctr
    simp only [markGo, List.map_cons, ih]

theorem markGo_chain (m u : String) :
    ∀ (l : List Row) (ctr : List (String × ℕ)),
      List.Chain' (fun a b => a.2 ≤ b.2)
          ((markGo m l ctr).filter (fun q => q.1.entity == u)) ∧
        ∀ q ∈ (markGo m l ctr).filter (fun q => q.1.entity == u),
          lookupC u ctr ≤ q.2 := by
  intro l
  induction l with
  | nil =>
    intro ctr
    exact ⟨List.chain'_nil, by simp [markGo]⟩
  | cons r rest ih =>
    intro ctr
    simp only [markGo, List.filter_cons]
    by_cases hu : r.entity = u
    · subst hu
      have hbeq : ((r, lookupC r.entity ctr + if r.event = m then 1 else 0).1.entity
          == r.entity) = true := by simp
      rw [hbeq]
      simp only [if_true]
      obtain ⟨ihc, ihb⟩ := ih (setC r.entity
        (lookupC r.entity ctr + if r.event = m then 1 else 0) ctr)
      have hself := lookupC_setC_self r.entity
        (lookupC r.entity ctr + if r.event = m then 1 else 0) ctr
      constructor
      · rw [List.chain'_cons']
        refine ⟨?_, ihc⟩
        intro b hb
        have hbm : b ∈ (markGo m rest (setC r.entity
            (lookupC r.entity ctr + if r.event = m then 1 else 0) ctr)).filter
            (fun q => q.1.entity == r.entity) := List.mem_of_mem_head? hb
        have := ihb b hbm
        rw [hself] at this
        exact this
      · intro q hq
        rcases List.mem_cons.mp hq with rfl | hq'
        · exact Nat.le_add_right _ _
        · have := ihb q hq'
          rw [hself] at this
          exact le_trans (Nat.le_add_right _ _) this
    · have hbeq : ((r, lookupC r.entity ctr + if r.event = m then 1 else 0).1.entity
          == u) = false := by
        simp only [beq_eq_false_iff_ne, ne_eq]
        exact hu
      rw [hbeq]
      simp only [Bool.false_eq_true, if_false]
      obtain ⟨ihc, ihb⟩ := ih (setC r.entity
        (lookupC r.entity ctr + if r.event = m then 1 else 0) ctr)
      refine ⟨ihc, ?_⟩
      intro q hq
      have := ihb q hq
      rwa [lookupC_setC_ne _ _ _ _ (fun hc : u = r.entity => hu hc.symm)] at this

theorem ordGo_ge (flag : ℕ → Bool) :
    ∀ (l : List (ℕ × Row)) (ctr : List (String × ℕ)),
      ∀ q ∈ ordGo flag l ctr, lookupC q.1.2.entity ctr ≤ q.2 := by
  intro l
  induction l with
  | nil =>
    intro ctr q hq
    simp [ordGo] at hq
  | cons ir rest ih =>
    intro ctr q hq
    simp only [ordGo] at hq
    rcases List.mem_cons.mp hq with rfl | hq'
    · exact le_refl _
    · have h1 := ih _ q hq'
      refine le_trans ?_ h1
      by_cases hf : flag ir.1 = true
      · rw [if_pos hf]
        by_cases hu : q.1.2.entity = ir.2.entity
        · rw [hu, lookupC_setC_self]
          exact Nat.le_succ _
        · rw [lookupC_setC_ne _ _ _ _ hu]
      · rw [if_neg hf]

theorem ordGo_pairwise_mono (flag : ℕ → Bool) :
    ∀ (l : List (ℕ × Row)) (ctr : List (String × ℕ)),
      (ordGo flag l ctr).Pairwise
        (fun x y => x.1.2.entity = y.1.2.entity → x.2 ≤ y.2) := by
  intro l
  induction l with
  | nil =>
    intro ctr
    simp [ordGo]
  | cons ir rest ih =>
    intro ctr
    simp only [ordGo]
    refine List.Pairwise.cons ?_ (ih _)
    intro y hy hent
    have h1 := ordGo_ge flag rest _ y hy
    rw [← hent] at h1
    refine le_trans ?_ h1
    by_cases hf : flag ir.1 = true
    · rw [if_pos hf, lookupC_setC_self]
      exact Nat.le_succ _
    · rw [if_neg hf]

theorem ordGo_growth_point (flag : ℕ → Bool) :
    ∀ (l : List (ℕ × Row)) (ctr : List (String × ℕ)),
      l.Pairwise (fun a b => a.1 < b.1) →
      ∀ x ∈ ordGo flag l ctr, lookupC x.1.2.entity ctr < x.2 →
        ∃ m ∈ l, flag m.1 = true ∧ m.2.entity = x.1.2.entity ∧ m.1 < x.1.1 := by
  intro l
  induction l with
  | nil =>
    intro ctr _ x hx
    simp [ordGo] at hx
  | cons ir rest ih =>
    intro ctr hpw x hx hlt
    rcases List.pairwise_cons.mp hpw with ⟨hhead, htail⟩
    simp only [ordGo] at hx
    rcases List.mem_cons.mp hx with rfl | hx'
    · exact absurd hlt (lt_irrefl _)
    · by_cases hc : lookupC x.1.2.entity
          (if flag ir.1 = true then setC ir.2.entity (lookupC ir.2.entity ctr + 1) ctr
            else ctr) < x.2
      · obtain ⟨m, hm, h1, h2, h3⟩ := ih _ htail x hx' hc
        exact ⟨m, List.mem_cons_of_mem ir hm, h1, h2, h3⟩
      · push_neg at hc
        by_cases hf : flag ir.1 = true
        · by_cases hu : x.1.2.entity = ir.2.entity
          · refine ⟨ir, List.mem_cons_self ir rest, hf, hu.symm, ?_⟩
            have hx1 : x.1 ∈ rest := by
              have hmap := List.mem_map_of_mem (fun q => q.1) hx'
              rwa [ordGo_map_fst] at hmap
            exact hhead x.1 hx1
          · rw [if_pos hf, lookupC_setC_ne _ _ _ _ hu] at hc
            exact absurd hlt (not_lt.mpr hc)
        · rw [if_neg hf] at hc
          exact absurd hlt (not_lt.mpr hc)

theorem ordGo_pairwise_growth (flag : ℕ → Bool) :
    ∀ (l : List (ℕ × Row)) (ctr : List (String × ℕ)),
      l.Pairwise (fun a b => a.1 < b.1) →
      (ordGo flag l ctr).Pairwise (fun y x =>
        y.1.2.entity = x.1.2.entity → y.2 < x.2 →
          ∃ m ∈ l, flag m.1 = true ∧ m.2.entity = x.1.2.entity ∧
            y.1.1 ≤ m.1 ∧ m.1 < x.1.1) := by
  intro l
  induction l with
  | nil =>
    intro ctr _
    simp [ordGo]
  | cons ir rest ih =>
    intro ctr hpw
    rcases List.pairwise_cons.mp hpw with ⟨hhead, htail⟩
    simp only [ordGo]
    refine List.Pairwise.cons ?_ ((ih _ htail).imp ?_)
    · intro x hx hent hlt
      by_cases hc : lookupC x.1.2.entity
          (if flag ir.1 = true then setC ir.2.entity (lookupC ir.2.entity ctr + 1) ctr
            else ctr) < x.2
      · obtain ⟨m, hm, h1, h2, h3⟩ := ordGo_growth_point flag rest _ htail x hx hc
        exact ⟨m, List.mem_cons_of_mem ir hm, h1, h2, le_of_lt (hhead m hm), h3⟩
      · push_neg at hc
        by_cases hf : flag ir.1 = true
        · refine ⟨ir, List.mem_cons_self ir rest, hf, hent, le_refl _, ?_⟩
          have hx1 : x.1 ∈ rest := by
            have hmap := List.mem_map_of_mem (fun q => q.1) hx
            rwa [ordGo_map_fst] at hmap
          exact hhead x.1 hx1
        · rw [if_neg hf] at hc
          rw [← hent] at hc
          exact absurd hlt (not_lt.mpr hc)
    · intro a b hab
      intro hent hlt
      obtain ⟨m, hm, h1, h2, h3, h4⟩ := hab hent hlt
      exact ⟨m, List.mem_cons_of_mem ir hm, h1, h2, h3, h4⟩

theorem gapFlags_cons_cons (τ : ℚ) (x y : ℕ × Row) (rest : List (ℕ × Row)) :
    gapFlags τ (x :: y :: rest)
      = (if y.2.entity = x.2.entity ∧ τ < y.2.time - x.2.time then [x.1] else []) ++
        gapFlags τ (y :: rest) := by
  obtain ⟨i, r⟩ := x
  obtain ⟨j, s⟩ := y
  rfl

theorem gapFlags_mem (τ : ℚ) :
    ∀ (l : List (ℕ × Row)) (i : ℕ), i ∈ gapFlags τ l →
      ∃ (l₁ l₂ : List (ℕ × Row)) (ir js : ℕ × Row),
        l = l₁ ++ ir :: js :: l₂ ∧ ir.1 = i ∧ js.2.entity = ir.2.entity ∧
          τ < js.2.time - ir.2.time := by
  intro l
  induction l with
  | nil =>
    intro i hi
    simp [gapFlags] at hi
  | cons x rest ih =>
    intro i hi
    cases rest with
    | nil => simp [gapFlags] at hi
    | cons y rest' =>
      rw [gapFlags_cons_cons] at hi
      rcases List.mem_append.mp hi with h1 | h1
      · by_cases hc : y.2.entity = x.2.entity ∧ τ < y.2.time - x.2.time
        · rw [if_pos hc] at h1
          obtain rfl := List.mem_singleton.mp h1
          exact ⟨[], rest', x, y, rfl, rfl, hc.1, hc.2⟩
        · rw [if_neg hc] at h1
          exact absurd h1 (List.not_mem_nil i)
      · obtain ⟨l₁, l₂, ir, js, heq, h2, h3, h4⟩ := ih i h1
        refine ⟨x :: l₁, l₂, ir, js, ?_, h2, h3, h4⟩
        rw [List.cons_append, ← heq]

theorem flaggedIdx_spec (τ : ℚ) (data : List Row)
    (hsorted : data.Pairwise (fun a b => a.entity = b.entity → a.time ≤ b.time))
    (i : ℕ) (hi : i ∈ flaggedIdx τ data) :
    ∃ ir : ℕ × Row, ir ∈ data.enum ∧ ir.1 = i ∧
      ∀ js ∈ data.enum, js.2.entity = ir.2.entity → i < js.1 →
        ir.2.time + τ < js.2.time := by
  obtain ⟨l₁, l₂, ir, js, heq, hiri, hent, hgap⟩ := gapFlags_mem τ _ i hi
  subst hiri
  have hpw_time : data.enum.Pairwise
      (fun a b => a.2.entity = b.2.entity → a.2.time ≤ b.2.time) := by
    have h1 : data.enum.map Prod.snd = data := List.enum_map_snd data
    have h2 := hsorted
    rw [← h1] at h2
    exact List.pairwise_map.mp h2
  have hpw_idx := enum_pairwise_idx data
  have hmem_ir : ir ∈ data.enum := by
    have hmem : ir ∈ sortLt idRowLtB data.enum := by
      rw [heq]
      exact List.mem_append_right _ (List.mem_cons_self _ _)
    exact (mem_sortLt _ _ _).mp hmem
  refine ⟨ir, hmem_ir, rfl, ?_⟩
  intro q hq hqent hqi
  have hfil : (sortLt idRowLtB data.enum).filter (fun z => z.2.entity == ir.2.entity)
      = data.enum.filter (fun z => z.2.entity == ir.2.entity) := by
    apply filter_sortLt
    refine hpw_time.imp ?_
    intro a b hab hpa hpb
    have ha' : a.2.entity = ir.2.entity := by simpa using hpa
    have hb' : b.2.entity = ir.2.entity := by simpa using hpb
    have hle : a.2.time ≤ b.2.time := hab (ha'.trans hb'.symm)
    exact rowLtB_eq_false _ _ (hb'.trans ha'.symm) (not_lt.mpr hle)
  have hdecomp : (sortLt idRowLtB data.enum).filter (fun z => z.2.entity == ir.2.entity)
      = l₁.filter (fun z => z.2.entity == ir.2.entity) ++ ir :: js ::
          l₂.filter (fun z => z.2.entity == ir.2.entity) := by
    rw [heq, List.filter_append, List.filter_cons, List.filter_cons]
    rw [show (ir.2.entity == ir.2.entity) = true from by simp]
    rw [show (js.2.entity == ir.2.entity) = true from by simp [hent]]
    simp
  have hpw_both : (data.enum.filter (fun z => z.2.entity == ir.2.entity)).Pairwise
      (fun a b => a.1 < b.1 ∧ a.2.time ≤ b.2.time) := by
    have hc := List.Pairwise.sublist
      (@List.filter_sublist _ (fun z => z.2.entity == ir.2.entity) data.enum)
      (hpw_idx.and hpw_time)
    refine hc.imp_of_mem ?_
    intro a b ha hb hab
    have ha' : a.2.entity = ir.2.entity := by
      simpa using (List.mem_filter.mp ha).2
    have hb' : b.2.entity = ir.2.entity := by
      simpa using (List.mem_filter.mp hb).2
    exact ⟨hab.1, hab.2 (ha'.trans hb'.symm)⟩
  rw [hfil] at hdecomp
  have hqf : q ∈ data.enum.filter (fun z => z.2.entity == ir.2.entity) := by
    rw [List.mem_filter]
    exact ⟨hq, by simp [hqent]⟩
  rw [hdecomp] at hqf hpw_both
  rcases List.pairwise_append.mp hpw_both with ⟨_, hr, hcross⟩
  rcases List.mem_append.mp hqf with h1 | h1
  · have hlt := hcross q h1 ir (List.mem_cons_self _ _)
    exact absurd hqi (not_lt.mpr (le_of_lt hlt.1))
  · rcases List.mem_cons.mp h1 with rfl | h2
    · exact absurd hqi (lt_irrefl _)
    · rcases List.mem_cons.mp h2 with rfl | h3
      · linarith
      · rcases List.pairwise_cons.mp hr with ⟨_, hr2⟩
        rcases List.pairwise_cons.mp hr2 with ⟨hjs, _⟩
        have hle := hjs q h3
        linarith [hle.2]

theorem enum_pairwise_time (data : List Row)
    (hsorted : data.Pairwise (fun a b => a.entity = b.entity → a.time ≤ b.time)) :
    data.enum.Pairwise (fun a b => a.2.entity = b.2.entity → a.2.time ≤ b.2.time) := by
  have h1 : data.enum.map Prod.snd = data := List.enum_map_snd data
  have h2 := hsorted
  rw [← h1] at h2
  exact List.pairwise_map.mp h2

theorem gap_eos_ord_mono (τ : ℚ) (e : String) (data : List Row) (flag : ℕ → Bool)
    (hsorted : data.Pairwise (fun a b => a.entity = b.entity → a.time ≤ b.time))
    (hτ : 1 ≤ τ)
    (hflag : ∀ i, flag i = true → i ∈ flaggedIdx τ data)
    (a b : Row × ℕ)
    (ha : a ∈ (ordGo flag (data.enum.filter (fun ir => decide (ir.2.event ≠ e))) []).map
        (fun q => (q.1.2, q.2)) ++
        tmpOf flag e (ordGo flag (data.enum.filter (fun ir => decide (ir.2.event ≠ e))) []))
    (hb : b ∈ (ordGo flag (data.enum.filter (fun ir => decide (ir.2.event ≠ e))) []).map
        (fun q => (q.1.2, q.2)) ++
        tmpOf flag e (ordGo flag (data.enum.filter (fun ir => decide (ir.2.event ≠ e))) []))
    (htime : a.1.time ≤ b.1.time) (hent : a.1.entity = b.1.entity) :
    a.2 ≤ b.2 := by
  set res := data.enum.filter (fun ir => decide (ir.2.event ≠ e)) with hres
  set labeled := ordGo flag res [] with hlab
  have henum_pw := (enum_pairwise_idx data).and (enum_pairwise_time data hsorted)
  have hres_sub : List.Sublist res data.enum := by
    rw [hres]
    exact @List.filter_sublist _ (fun ir => decide (ir.2.event ≠ e)) data.enum
  have E : ∀ p q : ℕ × Row, p ∈ data.enum → q ∈ data.enum → p.1 < q.1 →
      p.2.entity = q.2.entity → p.2.time ≤ q.2.time := by
    intro p q hp hq hidx hpent
    rcases pairwise_two_mem _ _ henum_pw p q hp hq with rfl | hpq | hqp
    · exact le_refl _
    · exact hpq.2 hpent
    · exact absurd hidx (not_lt.mpr (le_of_lt hqp.1))
  have Eeq : ∀ p q : ℕ × Row, p ∈ data.enum → q ∈ data.enum → p.1 = q.1 → p = q := by
    intro p q hp hq hidx
    rcases pairwise_two_mem _ _ henum_pw p q hp hq with h | h | h
    · exact h
    · exact absurd hidx (ne_of_lt h.1)
    · exact absurd hidx.symm (ne_of_lt h.1)
  have hlab_fst : labeled.map (fun q => q.1) = res := by
    rw [hlab]
    exact ordGo_map_fst flag res []
  have hlab_mem : ∀ x, x ∈ labeled → x.1 ∈ data.enum := by
    intro x hx
    have h1 := List.mem_map_of_mem (fun q : (ℕ × Row) × ℕ => q.1) hx
    rw [hlab_fst] at h1
    exact hres_sub.subset h1
  have hres_pw_idx : res.Pairwise (fun p q => p.1 < q.1) :=
    List.Pairwise.sublist hres_sub (enum_pairwise_idx data)
  have hlab_idx : labeled.Pairwise (fun x y => x.1.1 < y.1.1) := by
    have h1 := hres_pw_idx
    rw [← hlab_fst] at h1
    have h2 := List.pairwise_map.mp h1
    exact h2
  have hP1 : labeled.Pairwise (fun x y => x.1.2.entity = y.1.2.entity → x.2 ≤ y.2) := by
    rw [hlab]
    exact ordGo_pairwise_mono flag res []
  have hG : labeled.Pairwise (fun y x => y.1.2.entity = x.1.2.entity → y.2 < x.2 →
      ∃ m ∈ res, flag m.1 = true ∧ m.2.entity = x.1.2.entity ∧
        y.1.1 ≤ m.1 ∧ m.1 < x.1.1) := by
    rw [hlab]
    exact ordGo_pairwise_growth flag res [] hres_pw_idx
  have hPW := hlab_idx.and (hP1.and hG)
  have htmp_mem : ∀ c : Row × ℕ, c ∈ tmpOf flag e labeled →
      ∃ x, x ∈ labeled ∧ flag x.1.1 = true ∧
        c = ({ x.1.2 with event := e, time := x.1.2.time + 1 }, x.2) := by
    intro c hc
    simp only [tmpOf, List.mem_map, List.mem_filter] at hc
    obtain ⟨x, ⟨hx1, hx2⟩, rfl⟩ := hc
    exact ⟨x, hx1, hx2, rfl⟩
  have key : ∀ x y : (ℕ × Row) × ℕ, x ∈ labeled → y ∈ labeled →
      y.1.2.entity = x.1.2.entity → y.1.1 < x.1.1 →
      x.1.2.time ≤ y.1.2.time + τ → x.2 ≤ y.2 := by
    intro x y hx hy hentxy hidx htx
    by_contra hcon
    push_neg at hcon
    rcases pairwise_two_mem _ _ hPW x y hx hy with rfl | hxy | hyx
    · exact absurd hidx (lt_irrefl _)
    · exact absurd hidx (not_lt.mpr (le_of_lt hxy.1))
    · obtain ⟨m, hm, hmf, hment, hmy, hmx⟩ := hyx.2.2 hentxy hcon
      obtain ⟨ir, hir_enum, hir_idx, hir_all⟩ :=
        flaggedIdx_spec τ data hsorted m.1 (hflag m.1 hmf)
      have hmem_m : m ∈ data.enum := hres_sub.subset hm
      have hirm : ir = m := Eeq ir m hir_enum hmem_m hir_idx
      have hxe : x.1 ∈ data.enum := hlab_mem x hx
      have hment2 : x.1.2.entity = ir.2.entity := by
        rw [hirm, hment]
      have hgt := hir_all x.1 hxe hment2 hmx
      rw [hirm] at hgt
      have hym : y.1.2.time ≤ m.2.time := by
        rcases lt_or_eq_of_le hmy with h | h
        · exact E y.1 m (hlab_mem y hy) hmem_m h (hentxy.trans hment.symm)
        · have hq := Eeq y.1 m (hlab_mem y hy) hmem_m h
          rw [hq]
      linarith
  rcases List.mem_append.mp ha with hareal | hatmp
  · rcases List.mem_map.mp hareal with ⟨x, hx, rfl⟩
    rcases List.mem_append.mp hb with hbreal | hbtmp
    · rcases List.mem_map.mp hbreal with ⟨y, hy, rfl⟩
      rcases pairwise_two_mem _ _ hPW x y hx hy with rfl | hxy | hyx
      · exact le_refl _
      · exact hxy.2.1 hent
      · refine key x y hx hy (Eq.symm hent) hyx.1 ?_
        have htime' : x.1.2.time ≤ y.1.2.time := htime
        linarith
    · rcases htmp_mem b hbtmp with ⟨y, hy, hyf, rfl⟩
      have hent' : x.1.2.entity = y.1.2.entity := hent
      have htime' : x.1.2.time ≤ y.1.2.time + 1 := htime
      rcases pairwise_two_mem _ _ hPW x y hx hy with rfl | hxy | hyx
      · exact le_refl _
      · exact hxy.2.1 hent'
      · refine key x y hx hy (Eq.symm hent') hyx.1 ?_
        linarith
  · rcases htmp_mem a hatmp with ⟨x, hx, hxf, rfl⟩
    rcases List.mem_append.mp hb with hbreal | hbtmp
    · rcases List.mem_map.mp hbreal with ⟨y, hy, rfl⟩
      have hent' : x.1.2.entity = y.1.2.entity := hent
      have htime' : x.1.2.time + 1 ≤ y.1.2.time := htime
      rcases pairwise_two_mem _ _ hPW x y hx hy with rfl | hxy | hyx
      · exact absurd htime' (by linarith)
      · exact hxy.2.1 hent'
      · have hle := E y.1 x.1 (hlab_mem y hy) (hlab_mem x hx) hyx.1 (Eq.symm hent')
        exact absurd htime' (by linarith)
    · rcases htmp_mem b hbtmp with ⟨y, hy, hyf, rfl⟩
      have hent' : x.1.2.entity = y.1.2.entity := hent
      have htime' : x.1.2.time + 1 ≤ y.1.2.time + 1 := htime
      rcases pairwise_two_mem _ _ hPW x y hx hy with rfl | hxy | hyx
      · exact le_refl _
      · exact hxy.2.1 hent'
      · refine key x y hx hy (Eq.symm hent') hyx.1 ?_
        linarith

/-- C8 (amended): session ordinals are non-decreasing along each entity's
rows read in (stable) chronological order, provided each entity's rows
already appear in timestamp order in the input — the cumsum/shift runs in raw
table order, so unsorted input breaks the claim — and provided thresh ≥ 1
whenever gap mode synthesizes end-of-session rows, whose timestamps are one
second after the rows they copy. -/
theorem C8_session_ordinal_monotone (by_event : Option String) (thresh : Option ℚ)
    (eos_event : Option String) (data : List Row) (out : List (Row × ℕ)) (u : String)
    (hsorted : data.Pairwise (fun a b => a.entity = b.entity → a.time ≤ b.time))
    (hτ1 : ∀ τ : ℚ, by_event = none → eos_event ≠ none → thresh = some τ → 1 ≤ τ)
    (hok : split_sessions_core by_event thresh eos_event data = Except.ok out) :
    List.Chain' (fun a b => a.2 ≤ b.2)
      ((sortLt timeLtB out).filter (fun q => q.1.entity == u)) := by
  have hA : ∀ a b : Row × ℕ, timeLtB a b = true → timeLtB b a = false := by
    intro a b h
    have h1 : a.1.time < b.1.time := by simpa [timeLtB] using h
    simp only [timeLtB, decide_eq_false_iff_not]
    linarith
  have hT : ∀ a b c : Row × ℕ, timeLtB b a = false → timeLtB c b = false →
      timeLtB c a = false := by
    intro a b c h1 h2
    have h1' : ¬ b.1.time < a.1.time := by simpa [timeLtB] using h1
    have h2' : ¬ c.1.time < b.1.time := by simpa [timeLtB] using h2
    simp only [timeLtB, decide_eq_false_iff_not]
    intro hc
    exact h2' (by linarith [not_lt.mp h1'])
  cases by_event with
  | some m =>
    simp only [split_sessions_core] at hok
    have hout := (Except.ok.inj hok).symm
    subst hout
    have hmark_fst : (markGo m data []).map Prod.fst = data := markGo_map_fst m data []
    have hpw : (markGo m data []).Pairwise
        (fun a b => a.1.entity = b.1.entity → a.1.time ≤ b.1.time) := by
      have h1 := hsorted
      rw [← hmark_fst] at h1
      have h2 := List.pairwise_map.mp h1
      exact h2
    have hstable : (sortLt timeLtB (markGo m data [])).filter
        (fun q => q.1.entity == u) = (markGo m data []).filter
        (fun q => q.1.entity == u) := by
      apply filter_sortLt
      refine hpw.imp ?_
      intro a b hab hpa hpb
      have ha' : a.1.entity = u := by simpa using hpa
      have hb' : b.1.entity = u := by simpa using hpb
      exact timeLtB_eq_false _ _ (not_lt.mpr (hab (ha'.trans hb'.symm)))
    rw [hstable]
    exact (markGo_chain m u data []).1
  | none =>
    cases thresh with
    | none => simp [split_sessions_core] at hok
    | some τ =>
      cases eos_event with
      | none =>
        simp only [split_sessions_core] at hok
        have hout := (Except.ok.inj hok).symm
        subst hout
        have h0 : (ordGo (fun i => decide (i ∈ flaggedIdx τ data)) data.enum []).map
            (fun q => q.1) = data.enum :=
          ordGo_map_fst _ data.enum []
        have hpwL : (ordGo (fun i => decide (i ∈ flaggedIdx τ data)) data.enum []).Pairwise
            (fun x y => x.1.2.entity = y.1.2.entity → x.1.2.time ≤ y.1.2.time) := by
          have h1 := enum_pairwise_time data hsorted
          rw [← h0] at h1
          have h2 := List.pairwise_map.mp h1
          exact h2
        have hpwOut : ((ordGo (fun i => decide (i ∈ flaggedIdx τ data)) data.enum []).map
            (fun q => (q.1.2, q.2))).Pairwise
            (fun a b => a.1.entity = b.1.entity → a.1.time ≤ b.1.time) := by
          refine List.pairwise_map.mpr ?_
          refine hpwL.imp ?_
          intro x y h hxy
          exact h hxy
        have hstable : (sortLt timeLtB ((ordGo (fun i => decide (i ∈ flaggedIdx τ data))
            data.enum []).map (fun q => (q.1.2, q.2)))).filter (fun q => q.1.entity == u)
            = ((ordGo (fun i => decide (i ∈ flaggedIdx τ data)) data.enum []).map
              (fun q => (q.1.2, q.2))).filter (fun q => q.1.entity == u) := by
          apply filter_sortLt
          refine hpwOut.imp ?_
          intro a b hab hpa hpb
          have ha' : a.1.entity = u := by simpa using hpa
          have hb' : b.1.entity = u := by simpa using hpb
          exact timeLtB_eq_false _ _ (not_lt.mpr (hab (ha'.trans hb'.symm)))
        rw [hstable]
        have hordOut : ((ordGo (fun i => decide (i ∈ flaggedIdx τ data)) data.enum []).map
            (fun q => (q.1.2, q.2))).Pairwise
            (fun a b => a.1.entity = b.1.entity → a.2 ≤ b.2) := by
          refine List.pairwise_map.mpr ?_
          refine (ordGo_pairwise_mono _ data.enum []).imp ?_
          intro x y h hxy
          exact h hxy
        refine List.Pairwise.chain' ((hordOut.filter _).imp_of_mem ?_)
        intro a b ha hb hab
        have ha' : a.1.entity = u := by simpa using (List.mem_filter.mp ha).2
        have hb' : b.1.entity = u := by simpa using (List.mem_filter.mp hb).2
        exact hab (ha'.trans hb'.symm)
      | some e =>
        simp only [split_sessions_core] at hok
        have hout := (Except.ok.inj hok).symm
        subst hout
        have hsorted_out := sortLt_pairwise timeLtB hA hT
          ((ordGo (fun i => decide (i ∈ flaggedIdx τ data))
              (data.enum.filter (fun ir => decide (ir.2.event ≠ e))) []).map
            (fun q => (q.1.2, q.2)) ++
            tmpOf (fun i => decide (i ∈ flaggedIdx τ data)) e
              (ordGo (fun i => decide (i ∈ flaggedIdx τ data))
                (data.enum.filter (fun ir => decide (ir.2.event ≠ e))) []))
        rw [sortLt_eq_self _ _ hsorted_out]
        have hperm := sortLt_perm timeLtB
          ((ordGo (fun i => decide (i ∈ flaggedIdx τ data))
              (data.enum.filter (fun ir => decide (ir.2.event ≠ e))) []).map
            (fun q => (q.1.2, q.2)) ++
            tmpOf (fun i => decide (i ∈ flaggedIdx τ data)) e
              (ordGo (fun i => decide (i ∈ flaggedIdx τ data))
                (data.enum.filter (fun ir => decide (ir.2.event ≠ e))) []))
        have hR : (sortLt timeLtB
            ((ordGo (fun i => decide (i ∈ flaggedIdx τ data))
                (data.enum.filter (fun ir => decide (ir.2.event ≠ e))) []).map
              (fun q => (q.1.2, q.2)) ++
              tmpOf (fun i => decide (i ∈ flaggedIdx τ data)) e
                (ordGo (fun i => decide (i ∈ flaggedIdx τ data))
                  (data.enum.filter (fun ir => decide (ir.2.event ≠ e))) []))).Pairwise
            (fun a b => a.1.entity = b.1.entity → a.2 ≤ b.2) := by
          refine hsorted_out.imp_of_mem ?_
          intro a b ha hb hab hent2
          have ha' := hperm.mem_iff.mp ha
          have hb' := hperm.mem_iff.mp hb
          have htle : a.1.time ≤ b.1.time := by
            have h1 : ¬ b.1.time < a.1.time := by simpa [timeLtB] using hab
            linarith [not_lt.mp h1]
          exact gap_eos_ord_mono τ e data _ hsorted
            (hτ1 τ rfl (by simp) rfl)
            (fun i hfi => by simpa using hfi) a b ha' hb' htle hent2
        refine List.Pairwise.chain' ((hR.filter _).imp_of_mem ?_)
        intro a b ha hb hab
        have ha' : a.1.entity = u := by simpa using (List.mem_filter.mp ha).2
        have hb' : b.1.entity = u := by simpa using (List.mem_filter.mp hb).2
        exact hab (ha'.trans hb'.symm)

/-- Witness for C8_session_ordinal_monotone: gap mode with an eos event on a
time-sorted A,B,A log with thresh 1800. -/
theorem C8_session_ordinal_monotone_witness :
    List.Chain' (fun a b : Row × ℕ => a.2 ≤ b.2)
      ((sortLt timeLtB [(mkRow "u1" "A" 0, 0), (mkRow "u1" "B" 10, 0),
        (mkRow "u1" "end" 11, 0), (mkRow "u1" "A" 2000, 1)]).filter
        (fun q => q.1.entity == "u1")) :=
  C8_session_ordinal_monotone none (some 1800) (some "end")
    [mkRow "u1" "A" 0, mkRow "u1" "B" 10, mkRow "u1" "A" 2000]
    [(mkRow "u1" "A" 0, 0), (mkRow "u1" "B" 10, 0), (mkRow "u1" "end" 11, 0),
      (mkRow "u1" "A" 2000, 1)] "u1"
    (by with_unfolding_all decide)
    (fun τ _ _ hτ => by
      obtain rfl : τ = 1800 := (Option.some.inj hτ).symm
      norm_num)
    (by with_unfolding_all rfl)

/-- C8 counterexample: marker mode on an entity whose rows are NOT in
timestamp order in the input; ordinals are assigned in raw table order, so
reading the rows chronologically yields the decreasing ordinal sequence
1, 0. -/
theorem C8_session_ordinal_counterexample :
    split_sessions_core (some "M") none none [mkRow "u1" "A" 10, mkRow "u1" "M" 0]
      = Except.ok [(mkRow "u1" "A" 10, 0), (mkRow "u1" "M" 0, 1)] ∧
    ((sortLt timeLtB [(mkRow "u1" "A" 10, 0), (mkRow "u1" "M" 0, 1)]).filter
      (fun q => q.1.entity == "u1")).map Prod.snd = [1, 0] ∧
    ¬ List.Chain' (fun a b : Row × ℕ => a.2 ≤ b.2)
      ((sortLt timeLtB [(mkRow "u1" "A" 10, 0), (mkRow "u1" "M" 0, 1)]).filter
        (fun q => q.1.entity == "u1")) := by
  refine ⟨by with_unfolding_all rfl, by with_unfolding_all rfl, ?_⟩
  intro hc
  rw [show (sortLt timeLtB [(mkRow "u1" "A" 10, 0), (mkRow "u1" "M" 0, 1)]).filter
      (fun q => q.1.entity == "u1")
      = [(mkRow "u1" "M" 0, 1), (mkRow "u1" "A" 10, 0)] from by
        with_unfolding_all rfl] at hc
  rw [List.chain'_cons] at hc
  exact absurd hc.1 (by decide)
